import Mathlib

/-!
Verification of the photo-sequencing script (src/rename_photos_exif.py).

The script is embedded shallowly:

* A Python datetime is a six-field record compared lexicographically.
* An image file carries its environment-determined inputs: the EXIF
  dictionary (or its absence, covering a raised exception in Image.open or
  _getexif as well as _getexif returning None), with each EXIF string value
  abstracted to its strptime "%Y:%m:%d %H:%M:%S" parse result, and the
  filesystem modification time (absent when os.path.getmtime raises).
* A directory is a list of named entries; os.listdir returns the names in
  list order.  os.rename is given POSIX semantics (the scripts in this
  repository target a Unix host): renaming onto an existing name silently
  replaces that entry, and the renamed entry keeps its list position.
* list.sort(key=...) is modelled by a stable insertion sort, matching the
  documented behaviour of Python sorting (stable, ascending).
* print output that the spec treats as observable (per-file rename lines and
  per-file error lines) is returned as a log.
* datetime.now() is passed in as a parameter.

Character-level details (str.lower, os.path.splitext, str.endswith, the
decimal formatting of %Y, %m, %d and %03d) are modelled on ASCII character
lists, zero-padding to the requested width and never truncating, exactly as
the CPython formatting does for in-range datetimes.
-/

/-- A timestamp carrying the six fields a Python datetime compares. -/
structure DateTime where
  year : Nat
  month : Nat
  day : Nat
  hour : Nat
  minute : Nat
  second : Nat
deriving DecidableEq

/-- Python datetime comparison: lexicographic on the six fields. -/
def DateTime.ble (a b : DateTime) : Bool :=
  Nat.blt a.year b.year ||
    (Nat.beq a.year b.year &&
      (Nat.blt a.month b.month ||
        (Nat.beq a.month b.month &&
          (Nat.blt a.day b.day ||
            (Nat.beq a.day b.day &&
              (Nat.blt a.hour b.hour ||
                (Nat.beq a.hour b.hour &&
                  (Nat.blt a.minute b.minute ||
                    (Nat.beq a.minute b.minute &&
                      Nat.ble a.second b.second)))))))))

/-- Strict comparison, derived from the total order. -/
def DateTime.blt (a b : DateTime) : Bool := !(DateTime.ble b a)

/-- Bounds that every value a Python datetime can hold satisfies. -/
def DateTime.Valid (t : DateTime) : Prop :=
  1 ≤ t.year ∧ t.year ≤ 9999 ∧ 1 ≤ t.month ∧ t.month ≤ 12 ∧
    1 ≤ t.day ∧ t.day ≤ 31 ∧ t.hour ≤ 23 ∧ t.minute ≤ 59 ∧ t.second ≤ 61

instance (t : DateTime) : Decidable t.Valid := by
  unfold DateTime.Valid; infer_instance

/-- ASCII case table modelling str.lower on the characters that occur in
filenames handled here. -/
def lowerPairs : List (Char × Char) :=
  [('A','a'),('B','b'),('C','c'),('D','d'),('E','e'),('F','f'),('G','g'),
   ('H','h'),('I','i'),('J','j'),('K','k'),('L','l'),('M','m'),('N','n'),
   ('O','o'),('P','p'),('Q','q'),('R','r'),('S','s'),('T','t'),('U','u'),
   ('V','v'),('W','w'),('X','x'),('Y','y'),('Z','z')]

/-- str.lower on a single character (ASCII). -/
def toLowerChar (c : Char) : Char :=
  match lowerPairs.find? (fun p => p.1 == c) with
  | some p => p.2
  | none => c

/-- str.lower on a string (ASCII). -/
def lowerStr (s : String) : String := String.mk (s.data.map toLowerChar)

/-- The ten decimal digit characters. -/
def digitChars : List Char := ['0','1','2','3','4','5','6','7','8','9']

/-- The character of a decimal digit. -/
def digitChar (n : Nat) : Char := digitChars.getD n '0'

/-- Decimal digits of a natural number, most significant first; the first
argument is structural fuel (any fuel above the number suffices). -/
def natDigitsAux : Nat → Nat → List Char
  | 0, _ => []
  | fuel + 1, n =>
    if n < 10 then [digitChar n]
    else natDigitsAux fuel (n / 10) ++ [digitChar (n % 10)]

/-- Decimal digits of a natural number, most significant first. -/
def natDigits (n : Nat) : List Char := natDigitsAux (n + 1) n

/-- Zero-pad the decimal form of n to width w, as C-style %0wd does:
shorter numbers are padded, longer numbers are printed in full. -/
def padChars (w n : Nat) : List Char :=
  List.replicate (w - (natDigits n).length) '0' ++ natDigits n

/-- String form of padChars. -/
def padNum (w n : Nat) : String := String.mk (padChars w n)

/-- The extension part of os.path.splitext(s): the substring from the last
dot, unless every character before that dot is itself a dot (leading dots
of a dotfile do not start an extension). -/
def splitextExt (s : String) : String :=
  match s.data.reverse.dropWhile (fun c => !(c == '.')) with
  | [] => ""
  | _ :: before =>
    if before.all (fun c => c == '.') then ""
    else String.mk ('.' :: (s.data.reverse.takeWhile (fun c => !(c == '.'))).reverse)

/-- Python str.endswith, modelled on the character list. -/
def endsWithStr (s t : String) : Bool := t.data.reverse.isPrefixOf s.data.reverse

/-- The filter applied to os.listdir output:
filename.lower().endswith(('.jpg', '.jpeg', '.png')). -/
def isImageName (s : String) : Bool :=
  endsWithStr (lowerStr s) ".jpg" || endsWithStr (lowerStr s) ".jpeg" ||
    endsWithStr (lowerStr s) ".png"

/-- Environment-determined inputs of one image file. -/
structure ImageFile where
  exif : Option (List (Nat × Option DateTime))
  mtime : Option DateTime
deriving DecidableEq

/-- The tag order hard-coded in get_exif_date: DateTimeOriginal (36867),
DateTime (306), DateTimeDigitized (36868). -/
def exifTags : List Nat := [36867, 306, 36868]

/-- Dictionary lookup in the EXIF mapping: some v when the tag is present
(v itself records whether the value parses), none when absent. -/
def lookupTag (exif : List (Nat × Option DateTime)) (tag : Nat) :
    Option (Option DateTime) :=
  (exif.find? (fun p => Nat.beq p.1 tag)).map (fun p => p.2)

/-- The loop of get_exif_date over the tag list: a present tag whose value
parses wins; a missing tag or a ValueError falls through to the next tag. -/
def findExifDate (exif : List (Nat × Option DateTime)) :
    List Nat → Option DateTime
  | [] => none
  | tag :: rest =>
    match lookupTag exif tag with
    | some (some dt) => some dt
    | _ => findExifDate exif rest

/-- get_exif_date: None when the image cannot be opened or has no EXIF
dictionary, else the first tag in exifTags whose value parses. -/
def get_exif_date (img : ImageFile) : Option DateTime :=
  match img.exif with
  | none => none
  | some exif => findExifDate exif exifTags

/-- get_file_date: the modification time, or datetime.now() when
os.path.getmtime raises. -/
def get_file_date (img : ImageFile) (now : DateTime) : DateTime :=
  img.mtime.getD now

/-- get_photo_date: EXIF date when available, else the file date. -/
def get_photo_date (img : ImageFile) (now : DateTime) : DateTime :=
  (get_exif_date img).getD (get_file_date img now)

/-- The resolution chain exactly as the specification words it, written for
comparison with get_photo_date: embedded original-capture metadata (tag
36867), then embedded modified-time metadata (tag 306), then the filesystem
modification time, then the current time.  Tag 36868 does not appear. -/
def specPhotoDate (img : ImageFile) (now : DateTime) : DateTime :=
  match img.exif with
  | none => get_file_date img now
  | some exif =>
    match lookupTag exif 36867 with
    | some (some dt) => dt
    | _ =>
      match lookupTag exif 306 with
      | some (some dt) => dt
      | _ => get_file_date img now

/-- The resolution chain the code implements, written as a chain for the
amended claim: tags 36867, 306, 36868, then the modification time, then the
current time. -/
def amendedPhotoDate (img : ImageFile) (now : DateTime) : DateTime :=
  match img.exif with
  | none => get_file_date img now
  | some exif =>
    match lookupTag exif 36867 with
    | some (some dt) => dt
    | _ =>
      match lookupTag exif 306 with
      | some (some dt) => dt
      | _ =>
        match lookupTag exif 36868 with
        | some (some dt) => dt
        | _ => get_file_date img now

/-- A directory entry: a name and the file behind it.  fileId is the
identity of the underlying file, so that data loss is observable. -/
structure Entry where
  name : String
  fileId : Nat
  img : ImageFile
deriving DecidableEq

/-- A directory is its entry list; os.listdir returns names in this order. -/
abbrev Dir := List Entry

/-- The names in a directory, in listing order. -/
def dirNames (d : Dir) : List String := d.map (fun e => e.name)

/-- The directory after a successful POSIX rename: any existing entry named
dst (other than the source itself) is dropped, and the entry named src keeps
its list position under its new name. -/
def renamedDir (d : Dir) (src dst : String) : Dir :=
  (d.filter (fun e => !(e.name == dst) || e.name == src)).map
    (fun e => if e.name == src then { e with name := dst } else e)

/-- POSIX os.rename: fails only when src is absent; otherwise any existing
entry named dst is silently replaced. -/
def osRename (d : Dir) (src dst : String) : Option Dir :=
  if (d.find? (fun e => e.name == src)).isSome then
    some (renamedDir d src dst)
  else none

/-- The image files of a directory, in listing order. -/
def listImages (d : Dir) : List String := (dirNames d).filter isImageName

/-- get_photo_date applied through the filesystem to a path. -/
def dateForPath (d : Dir) (now : DateTime) (p : String) : DateTime :=
  match d.find? (fun e => e.name == p) with
  | some e => get_photo_date e.img now
  | none => now

/-- The (date, path) pairs the script builds before sorting. -/
def datedFiles (d : Dir) (now : DateTime) : List (DateTime × String) :=
  (listImages d).map (fun p => (dateForPath d now p, p))

/-- One insertion step of the stable sort: a new element passes over
strictly smaller keys and stops before the first key that is greater than
or equal to it, so elements with equal keys keep their original order. -/
def insertByDate (x : DateTime × String) :
    List (DateTime × String) → List (DateTime × String)
  | [] => [x]
  | h :: t =>
    if DateTime.ble x.1 h.1 then x :: h :: t else h :: insertByDate x t

/-- Stable ascending sort by timestamp, modelling
image_files_with_dates.sort(key=lambda x: x[0]). -/
def sortByDate (l : List (DateTime × String)) : List (DateTime × String) :=
  l.foldr insertByDate []

/-- The extension the loop computes: os.path.splitext(old)[1].lower(),
defaulting to ".jpg" when empty. -/
def extFor (old : String) : String :=
  if lowerStr (splitextExt old) = "" then ".jpg" else lowerStr (splitextExt old)

/-- photo_date.strftime("%Y-%m-%d"). -/
def dateStr (t : DateTime) : String :=
  padNum 4 t.year ++ "-" ++ padNum 2 t.month ++ "-" ++ padNum 2 t.day

/-- The new filename built in the loop: date, counter (%03d), extension. -/
def newFilename (t : DateTime) (c : Nat) (old : String) : String :=
  dateStr t ++ "-" ++ padNum 3 c ++ extFor old

/-- One printed line of the loop: the old name, the name the script built
for it, and whether os.rename succeeded. -/
structure LogEntry where
  oldName : String
  newName : String
  ok : Bool
deriving DecidableEq

/-- The observable outcome of process_category: the final directory, the
returned count, the per-file log and the reported errors. -/
structure RunResult where
  dir : Dir
  count : Nat
  log : List LogEntry
  errors : List String
deriving DecidableEq

/-- The rename loop of process_category: the counter advances once per
file whether or not the rename raised, and the function finally returns
counter - 1. -/
def renameLoop (d : Dir) (c : Nat) : List (DateTime × String) → RunResult
  | [] => { dir := d, count := c - 1, log := [], errors := [] }
  | (t, old) :: rest =>
    let newN := newFilename t c old
    match osRename d old newN with
    | some d' =>
      let r := renameLoop d' (c + 1) rest
      { r with log := { oldName := old, newName := newN, ok := true } :: r.log }
    | none =>
      let r := renameLoop d (c + 1) rest
      { r with
          log := { oldName := old, newName := newN, ok := false } :: r.log,
          errors := old :: r.errors }

/-- process_category: list the image files, resolve their dates, sort
stably by date, then rename with a counter starting at 1. -/
def process_category (d : Dir) (now : DateTime) : RunResult :=
  renameLoop d 1 (sortByDate (datedFiles d now))

/-- The names the loop builds, file by file, starting from counter c.
The loop derives each name from the sorted position alone, so this list
is what the run assigns whatever the rename outcomes are. -/
def assignNames : List (DateTime × String) → Nat → List String
  | [], _ => []
  | (t, old) :: rest, c => newFilename t c old :: assignNames rest (c + 1)

/-- Decidable form of the naming pattern the spec claims, matching the
regular expression for four digit year, two digit month and day, a three
digit counter and one of the three allowed extensions. -/
def isDigitChar (c : Char) : Bool := decide ('0' ≤ c) && decide (c ≤ '9')

/-- Matcher for the anchored pattern of claim C7. -/
def matchesPattern (s : String) : Bool :=
  match s.data with
  | y1 :: y2 :: y3 :: y4 :: a1 :: m1 :: m2 :: a2 :: d1 :: d2 :: a3 ::
      c1 :: c2 :: c3 :: rest =>
    isDigitChar y1 && isDigitChar y2 && isDigitChar y3 && isDigitChar y4 &&
    a1 == '-' && isDigitChar m1 && isDigitChar m2 && a2 == '-' &&
    isDigitChar d1 && isDigitChar d2 && a3 == '-' &&
    isDigitChar c1 && isDigitChar c2 && isDigitChar c3 &&
    (rest == ".jpg".data || rest == ".jpeg".data || rest == ".png".data)
  | _ => false


/-! Concrete inputs used by counterexamples and witnesses. -/

/-- A datetime with zero seconds. -/
def mkDT (y mo dd hh mi : Nat) : DateTime :=
  { year := y, month := mo, day := dd, hour := hh, minute := mi, second := 0 }

/-- A file with no EXIF data and the given modification time. -/
def mtimeImg (t : DateTime) : ImageFile := { exif := none, mtime := some t }

/-- The wall-clock time used by the examples. -/
def exNow : DateTime := mkDT 2025 6 1 12 0

/-- Three files whose resolved dates are 2024-01-01, 2024-01-01 and
2024-01-02 in listing and chronological order. -/
def exDirC1 : Dir :=
  [ { name := "a.jpg", fileId := 1, img := mtimeImg (mkDT 2024 1 1 9 0) },
    { name := "b.jpg", fileId := 2, img := mtimeImg (mkDT 2024 1 1 10 0) },
    { name := "c.jpg", fileId := 3, img := mtimeImg (mkDT 2024 1 2 9 0) } ]

/-- A directory in which the name built for the first file in timestamp
order is already the name of another file. -/
def exDirColl : Dir :=
  [ { name := "b.jpg", fileId := 1, img := mtimeImg (mkDT 2024 1 1 10 0) },
    { name := "2024-01-01-001.jpg", fileId := 2,
      img := mtimeImg (mkDT 2024 1 2 10 0) } ]

/-- An image whose only parseable EXIF entry is tag 36868
(DateTimeDigitized) and whose modification time differs. -/
def exImgC4 : ImageFile :=
  { exif := some [(36868, some (mkDT 2022 7 4 8 30))],
    mtime := some (mkDT 2023 5 1 10 0) }

/-- A file on which every environment source failed. -/
def exImgBare : ImageFile := { exif := none, mtime := none }

/-- A file with a parseable original-capture tag and no modification time. -/
def exImgOrig : ImageFile :=
  { exif := some [(36867, some (mkDT 2022 7 4 8 30))], mtime := none }

/-! A directory of 1000 image files, used to push the counter past 999. -/

/-- The name of the i-th file of the big directory. -/
def bigName (i : Nat) : String := "f" ++ padNum 3 i ++ ".jpg"

/-- The modification time of the i-th file: all on 2024-01-01, strictly
increasing by the minute. -/
def bigT (i : Nat) : DateTime :=
  { year := 2024, month := 1, day := 1, hour := i / 60, minute := i % 60,
    second := 0 }

/-- One thousand image files in increasing timestamp order. -/
def bigDir : Dir :=
  (List.range 1000).map
    (fun i => { name := bigName i, fileId := i, img := mtimeImg (bigT i) })

/-! Machinery for the idempotence analysis: the effect of a collision-free
run is a name substitution applied in place. -/

/-- Apply a (source name, target name) substitution list to one entry. -/
def applySubst (σ : List (String × String)) (e : Entry) : Entry :=
  match σ.find? (fun p => p.1 == e.name) with
  | some p => { e with name := p.2 }
  | none => e

/-- The same substitution on a bare name. -/
def substN (σ : List (String × String)) (n : String) : String :=
  match σ.find? (fun p => p.1 == n) with
  | some p => p.2
  | none => n

/-! Order lemmas for DateTime comparison. -/

theorem DateTime.ble_iff (a b : DateTime) : DateTime.ble a b = true ↔
    (a.year < b.year ∨ (a.year = b.year ∧ (a.month < b.month ∨ (a.month = b.month ∧
      (a.day < b.day ∨ (a.day = b.day ∧ (a.hour < b.hour ∨ (a.hour = b.hour ∧
      (a.minute < b.minute ∨ (a.minute = b.minute ∧ a.second ≤ b.second)))))))))) := by
  simp [DateTime.ble, Nat.blt_eq, Nat.beq_eq, Bool.or_eq_true, Bool.and_eq_true,
    Nat.ble_eq]

theorem DateTime.ble_refl (a : DateTime) : DateTime.ble a a = true := by
  simp [DateTime.ble_iff]

theorem DateTime.ble_total (a b : DateTime) :
    DateTime.ble a b = true ∨ DateTime.ble b a = true := by
  simp only [DateTime.ble_iff]; omega

theorem DateTime.ble_trans {a b c : DateTime} (h1 : DateTime.ble a b = true)
    (h2 : DateTime.ble b c = true) : DateTime.ble a c = true := by
  simp only [DateTime.ble_iff] at h1 h2 ⊢; omega

theorem DateTime.ble_antisymm {a b : DateTime} (h1 : DateTime.ble a b = true)
    (h2 : DateTime.ble b a = true) : a = b := by
  cases a; cases b
  simp only [DateTime.ble_iff] at h1 h2
  simp only [DateTime.mk.injEq]
  omega

theorem DateTime.blt_iff (a b : DateTime) :
    DateTime.blt a b = true ↔ ¬ DateTime.ble b a = true := by
  simp [DateTime.blt]

theorem DateTime.ble_of_blt {a b : DateTime} (h : DateTime.blt a b = true) :
    DateTime.ble a b = true := by
  rw [DateTime.blt_iff] at h
  rcases DateTime.ble_total a b with h' | h'
  · exact h'
  · exact absurd h' h

/-! Lemmas about the stable insertion sort. -/

theorem mem_insertByDate {x y : DateTime × String} {l : List (DateTime × String)} :
    y ∈ insertByDate x l ↔ y = x ∨ y ∈ l := by
  induction l with
  | nil => simp [insertByDate]
  | cons h t ih =>
    simp only [insertByDate]
    split
    · simp
    · simp [ih]; tauto

theorem length_insertByDate (x : DateTime × String) (l : List (DateTime × String)) :
    (insertByDate x l).length = l.length + 1 := by
  induction l with
  | nil => rfl
  | cons h t ih =>
    simp only [insertByDate]
    split
    · simp
    · simp [ih]

theorem length_sortByDate (l : List (DateTime × String)) :
    (sortByDate l).length = l.length := by
  induction l with
  | nil => rfl
  | cons h t ih => simp [sortByDate, List.foldr] at ih ⊢; rw [length_insertByDate, ih]

theorem mem_sortByDate {y : DateTime × String} {l : List (DateTime × String)} :
    y ∈ sortByDate l ↔ y ∈ l := by
  induction l with
  | nil => simp [sortByDate]
  | cons h t ih =>
    show y ∈ insertByDate h (sortByDate t) ↔ _
    rw [mem_insertByDate]
    simp [ih]

theorem pairwise_insertByDate {x : DateTime × String} {l : List (DateTime × String)}
    (hl : l.Pairwise (fun a b => DateTime.ble a.1 b.1 = true)) :
    (insertByDate x l).Pairwise (fun a b => DateTime.ble a.1 b.1 = true) := by
  induction l with
  | nil => simp [insertByDate]
  | cons h t ih =>
    rw [List.pairwise_cons] at hl
    simp only [insertByDate]
    split
    · rename_i hxh
      rw [List.pairwise_cons]
      constructor
      · intro b hb
        rcases List.mem_cons.mp hb with rfl | hb'
        · exact hxh
        · exact DateTime.ble_trans hxh (hl.1 b hb')
      · rw [List.pairwise_cons]; exact hl
    · rename_i hxh
      have hhx : DateTime.ble h.1 x.1 = true := by
        rcases DateTime.ble_total x.1 h.1 with h' | h'
        · exact absurd h' hxh
        · exact h'
      rw [List.pairwise_cons]
      constructor
      · intro b hb
        rcases mem_insertByDate.mp hb with rfl | hb'
        · exact hhx
        · exact hl.1 b hb'
      · exact ih hl.2

theorem sortByDate_pairwise (l : List (DateTime × String)) :
    (sortByDate l).Pairwise (fun a b => DateTime.ble a.1 b.1 = true) := by
  induction l with
  | nil => simp [sortByDate]
  | cons h t ih => exact pairwise_insertByDate ih

theorem sortByDate_eq_self {l : List (DateTime × String)}
    (hl : l.Pairwise (fun a b => DateTime.ble a.1 b.1 = true)) :
    sortByDate l = l := by
  induction l with
  | nil => rfl
  | cons h t ih =>
    rw [List.pairwise_cons] at hl
    show insertByDate h (sortByDate t) = h :: t
    rw [ih hl.2]
    cases t with
    | nil => rfl
    | cons h2 t2 =>
      simp only [insertByDate]
      rw [if_pos (hl.1 h2 (List.mem_cons_self h2 t2))]

theorem filter_insertByDate (x : DateTime × String) (l : List (DateTime × String))
    (t : DateTime) :
    (insertByDate x l).filter (fun p => p.1 == t) =
      (if x.1 = t then [x] else []) ++ l.filter (fun p => p.1 == t) := by
  induction l with
  | nil =>
    by_cases hx : x.1 = t <;> simp [insertByDate, List.filter_cons, hx]
  | cons h l' ih =>
    simp only [insertByDate]
    by_cases hc : DateTime.ble x.1 h.1 = true
    · simp only [if_pos hc]
      by_cases hx : x.1 = t <;> simp [List.filter_cons, hx]
    · simp only [if_neg hc]
      by_cases hh : h.1 = t
      · have hx : ¬ x.1 = t := by
          intro hxe
          apply hc
          rw [hxe, ← hh]
          exact DateTime.ble_refl _
        simp [List.filter_cons, hh, hx, ih]
      · simp [List.filter_cons, hh, ih]

theorem sortByDate_stable (l : List (DateTime × String)) (t : DateTime) :
    (sortByDate l).filter (fun p => p.1 == t) = l.filter (fun p => p.1 == t) := by
  induction l with
  | nil => rfl
  | cons h l' ih =>
    show (insertByDate h (sortByDate l')).filter _ = _
    rw [filter_insertByDate, ih, List.filter_cons]
    by_cases hh : h.1 = t <;> simp [hh]

theorem insertByDate_map {f : DateTime × String → DateTime × String}
    (hf : ∀ p, (f p).1 = p.1) (x : DateTime × String)
    (l : List (DateTime × String)) :
    insertByDate (f x) (l.map f) = (insertByDate x l).map f := by
  induction l with
  | nil => rfl
  | cons h t ih =>
    simp only [List.map_cons, insertByDate, hf]
    by_cases hc : DateTime.ble x.1 h.1 = true
    · simp [hc]
    · simp [hc, ih]

theorem sortByDate_map (f : DateTime × String → DateTime × String)
    (hf : ∀ p, (f p).1 = p.1) (l : List (DateTime × String)) :
    sortByDate (l.map f) = (sortByDate l).map f := by
  induction l with
  | nil => rfl
  | cons h t ih =>
    show insertByDate (f h) (sortByDate (t.map f)) = _
    rw [ih]
    exact insertByDate_map hf h (sortByDate t)

/-! Lemmas about osRename and the rename loop. -/

theorem entry_eta (e : Entry) : { e with name := e.name } = e := by
  cases e; rfl

theorem osRename_some {d : Dir} {src : String} (dst : String)
    (h : ∃ e ∈ d, e.name = src) :
    osRename d src dst = some (renamedDir d src dst) := by
  have hsome : (d.find? (fun e => e.name == src)).isSome = true := by
    rw [List.find?_isSome]
    obtain ⟨e, he, hn⟩ := h
    exact ⟨e, he, by simp [hn]⟩
  simp [osRename, hsome]

theorem osRename_self {d : Dir} {p : String} (h : ∃ e ∈ d, e.name = p) :
    osRename d p p = some d := by
  rw [osRename_some p h]
  congr 1
  unfold renamedDir
  have hf : d.filter (fun e => !(e.name == p) || e.name == p) = d := by
    rw [List.filter_eq_self]
    intro e _
    cases he : e.name == p <;> simp [he]
  rw [hf]
  have hm : ∀ e ∈ d, (if e.name == p then { e with name := p } else e) = e := by
    intro e _
    cases he : e.name == p with
    | false => simp
    | true =>
      simp only [if_pos rfl]
      rw [beq_iff_eq] at he
      rw [← he]
      exact entry_eta e
  calc d.map (fun e => if e.name == p then { e with name := p } else e)
      = d.map id := List.map_congr_left hm
    _ = d := List.map_id d

theorem mem_renamedDir_of_ne {d : Dir} {e : Entry} {src dst : String}
    (he : e ∈ d) (hd : e.name ≠ dst) (hs : e.name ≠ src) :
    e ∈ renamedDir d src dst := by
  unfold renamedDir
  have h1 : e ∈ d.filter (fun e => !(e.name == dst) || e.name == src) := by
    rw [List.mem_filter]
    refine ⟨he, ?_⟩
    simp [hd]
  have h2 := List.mem_map_of_mem
    (fun e => if e.name == src then { e with name := dst } else e) h1
  simpa [hs] using h2

theorem renamed_mem_renamedDir {d : Dir} {e : Entry} {src : String}
    (dst : String) (he : e ∈ d) (hs : e.name = src) :
    { e with name := dst } ∈ renamedDir d src dst := by
  unfold renamedDir
  have h1 : e ∈ d.filter (fun e => !(e.name == dst) || e.name == src) := by
    rw [List.mem_filter]
    refine ⟨he, ?_⟩
    simp [hs]
  have h2 := List.mem_map_of_mem
    (fun e => if e.name == src then { e with name := dst } else e) h1
  simpa [hs] using h2

theorem renameLoop_log_newNames (l : List (DateTime × String)) :
    ∀ (d : Dir) (c : Nat),
    ((renameLoop d c l).log).map (fun e => e.newName) = assignNames l c := by
  induction l with
  | nil => intro d c; rfl
  | cons p rest ih =>
    intro d c
    obtain ⟨t, old⟩ := p
    simp only [renameLoop, assignNames]
    cases hr : osRename d old (newFilename t c old) with
    | some d' => simp [hr, ih]
    | none => simp [hr, ih]

theorem renameLoop_log_oldNames (l : List (DateTime × String)) :
    ∀ (d : Dir) (c : Nat),
    ((renameLoop d c l).log).map (fun e => e.oldName) = l.map (fun p => p.2) := by
  induction l with
  | nil => intro d c; rfl
  | cons p rest ih =>
    intro d c
    obtain ⟨t, old⟩ := p
    simp only [renameLoop]
    cases hr : osRename d old (newFilename t c old) with
    | some d' => simp [hr, ih]
    | none => simp [hr, ih]

theorem renameLoop_log_length (l : List (DateTime × String)) (d : Dir) (c : Nat) :
    ((renameLoop d c l).log).length = l.length := by
  have h := renameLoop_log_oldNames l d c
  have := congrArg List.length h
  simpa using this

theorem renameLoop_count (l : List (DateTime × String)) :
    ∀ (d : Dir) (c : Nat), (renameLoop d c l).count = c + l.length - 1 := by
  induction l with
  | nil => intro d c; simp [renameLoop]
  | cons p rest ih =>
    intro d c
    obtain ⟨t, old⟩ := p
    simp only [renameLoop]
    cases hr : osRename d old (newFilename t c old) with
    | some d' => simp [hr, ih]
    | none => simp [hr, ih]

theorem renameLoop_errors (l : List (DateTime × String)) :
    ∀ (d : Dir),
    (∀ p ∈ l, ∃ e ∈ d, e.name = p.2) → (l.map (fun p => p.2)).Nodup →
    ∀ c, (renameLoop d c l).errors = [] := by
  induction l with
  | nil => intros; rfl
  | cons p rest ih =>
    intro d hpres hnd c
    obtain ⟨t, old⟩ := p
    have hold : ∃ e ∈ d, e.name = old := hpres (t, old) (List.mem_cons_self _ _)
    simp only [renameLoop]
    rw [osRename_some (newFilename t c old) hold]
    simp only []
    have hrest : ∀ q ∈ rest, ∃ e ∈ renamedDir d old (newFilename t c old),
        e.name = q.2 := by
      intro q hq
      obtain ⟨eo, heo, hno⟩ := hold
      have hqo : q.2 ≠ old := by
        simp only [List.map_cons, List.nodup_cons] at hnd
        intro hqe
        exact hnd.1 (hqe ▸ List.mem_map_of_mem (fun p => p.2) hq)
      by_cases hqd : q.2 = newFilename t c old
      · refine ⟨{ eo with name := newFilename t c old },
          renamed_mem_renamedDir _ heo hno, by simp [hqd]⟩
      · obtain ⟨eq', heq', hneq'⟩ := hpres q (List.mem_cons_of_mem _ hq)
        exact ⟨eq', mem_renamedDir_of_ne heq' (hneq' ▸ hqd) (hneq' ▸ hqo), hneq'⟩
    have hnd' : (rest.map (fun p => p.2)).Nodup := by
      simp only [List.map_cons, List.nodup_cons] at hnd
      exact hnd.2
    simp [ih _ hrest hnd' (c + 1)]

theorem process_category_count (d : Dir) (now : DateTime) :
    (process_category d now).count = (listImages d).length := by
  unfold process_category
  rw [renameLoop_count]
  rw [length_sortByDate]
  unfold datedFiles
  rw [List.length_map]
  omega

/-! Lemmas about decimal digits and padding. -/

theorem natDigitsAux_congr : ∀ (f1 f2 n : Nat), n < f1 → n < f2 →
    natDigitsAux f1 n = natDigitsAux f2 n := by
  intro f1
  induction f1 with
  | zero => intro f2 n h1 _; omega
  | succ f ih =>
    intro f2 n h1 h2
    cases f2 with
    | zero => omega
    | succ g =>
      simp only [natDigitsAux]
      by_cases hn : n < 10
      · simp [hn]
      · have hd : n / 10 < n := Nat.div_lt_self (by omega) (by omega)
        rw [if_neg hn, if_neg hn, ih g (n / 10) (by omega) (by omega)]

theorem natDigits_eq (n : Nat) : natDigits n =
    if n < 10 then [digitChar n]
    else natDigits (n / 10) ++ [digitChar (n % 10)] := by
  show natDigitsAux (n + 1) n = _
  simp only [natDigitsAux]
  by_cases hn : n < 10
  · simp [hn]
  · have hd : n / 10 < n := Nat.div_lt_self (by omega) (by omega)
    rw [if_neg hn, if_neg hn,
      natDigitsAux_congr n (n / 10 + 1) (n / 10) (by omega) (by omega)]
    rfl

theorem natDigits_ne_nil (n : Nat) : natDigits n ≠ [] := by
  rw [natDigits_eq]
  by_cases hn : n < 10 <;> simp [hn]

theorem natDigits_length_pos (n : Nat) : 0 < (natDigits n).length :=
  List.length_pos.mpr (natDigits_ne_nil n)

theorem natDigits_length_le (k : Nat) : ∀ (n : Nat), n < 10 ^ k → 0 < k →
    (natDigits n).length ≤ k := by
  induction k with
  | zero => omega
  | succ k ih =>
    intro n hn _
    rw [natDigits_eq]
    by_cases h10 : n < 10
    · simp [h10]
    · rw [if_neg h10]
      have hk : 0 < k := by
        rcases Nat.eq_zero_or_pos k with rfl | h
        · simp at hn; omega
        · exact h
      have hdiv : n / 10 < 10 ^ k := by
        rw [Nat.div_lt_iff_lt_mul (by omega)]
        calc n < 10 ^ (k + 1) := hn
          _ = 10 ^ k * 10 := by rw [Nat.pow_succ]
      have := ih (n / 10) hdiv hk
      simp only [List.length_append, List.length_cons, List.length_nil]
      omega

theorem natDigits_length_ge_two (n : Nat) (h : ¬ n < 10) :
    2 ≤ (natDigits n).length := by
  rw [natDigits_eq, if_neg h]
  have := natDigits_length_pos (n / 10)
  simp only [List.length_append, List.length_cons, List.length_nil]
  omega

theorem natDigits_length_mono (b : Nat) : ∀ (a : Nat), a ≤ b →
    (natDigits a).length ≤ (natDigits b).length := by
  induction b using Nat.strong_induction_on with
  | _ b ih =>
    intro a hab
    by_cases ha : a < 10
    · rw [natDigits_eq a, if_pos ha]
      have := natDigits_length_pos b
      simp only [List.length_cons, List.length_nil]
      omega
    · have hb : ¬ b < 10 := by omega
      rw [natDigits_eq a, if_neg ha, natDigits_eq b, if_neg hb]
      simp only [List.length_append, List.length_cons, List.length_nil]
      have hblt : b / 10 < b := Nat.div_lt_self (by omega) (by omega)
      have := ih (b / 10) hblt (a / 10) (Nat.div_le_div_right hab)
      omega

theorem natDigits_chars (n : Nat) : ∀ c ∈ natDigits n, ∃ m, m < 10 ∧ c = digitChar m := by
  induction n using Nat.strong_induction_on with
  | _ n ih =>
    intro c hc
    rw [natDigits_eq] at hc
    by_cases hn : n < 10
    · rw [if_pos hn] at hc
      simp only [List.mem_singleton] at hc
      exact ⟨n, hn, hc⟩
    · rw [if_neg hn] at hc
      rcases List.mem_append.mp hc with h | h
      · exact ih (n / 10) (Nat.div_lt_self (by omega) (by omega)) c h
      · simp only [List.mem_singleton] at h
        exact ⟨n % 10, Nat.mod_lt n (by omega), h⟩

theorem digitChar_facts : ∀ m, (digitChar m == '.') = false ∧
    (digitChar m == '-') = false ∧ toLowerChar (digitChar m) = digitChar m := by
  intro m
  by_cases hm : m < 10
  · revert m
    decide
  · have : digitChar m = '0' := by
      unfold digitChar
      apply List.getD_eq_default
      simp [digitChars]
      omega
    rw [this]
    decide

theorem digitChar_isDigit {m : Nat} (hm : m < 10) : isDigitChar (digitChar m) = true := by
  revert m
  decide

theorem digitChar_lt : ∀ a < 10, ∀ b < 10, a < b → digitChar a < digitChar b := by
  decide

theorem digitChar_gt_zero : ∀ m, 1 ≤ m → m < 10 → '0' < digitChar m := by
  decide

theorem natDigits_head_gt (n : Nat) : n ≠ 0 →
    ∀ c cs, natDigits n = c :: cs → '0' < c := by
  induction n using Nat.strong_induction_on with
  | _ n ih =>
    intro hn c cs hc
    rw [natDigits_eq] at hc
    by_cases h10 : n < 10
    · rw [if_pos h10] at hc
      simp only [List.cons.injEq] at hc
      rw [← hc.1]
      exact digitChar_gt_zero n (by omega) h10
    · rw [if_neg h10] at hc
      obtain ⟨c', cs', hcc⟩ :=
        List.exists_cons_of_ne_nil (natDigits_ne_nil (n / 10))
      rw [hcc] at hc
      simp only [List.cons_append, List.cons.injEq] at hc
      rw [← hc.1]
      exact ih (n / 10) (Nat.div_lt_self (by omega) (by omega))
        (by omega) c' cs' hcc

/-! Lexicographic comparison lemmas for character lists and strings. -/

theorem lexlt_append {u : List Char} : ∀ {v : List Char} {s t : List Char},
    u.length = v.length → List.Lex (· < ·) u v →
    List.Lex (· < ·) (u ++ s) (v ++ t) := by
  induction u with
  | nil =>
    intro v s t hlen h
    cases v with
    | nil => cases h
    | cons b bs => simp at hlen
  | cons a as ih =>
    intro v s t hlen h
    cases v with
    | nil => simp at hlen
    | cons b bs =>
      cases h with
      | rel hr => exact List.Lex.rel hr
      | cons ht => exact List.Lex.cons (ih (by simpa using hlen) ht)

theorem lexlt_append_left (u : List Char) {s t : List Char}
    (h : List.Lex (· < ·) s t) : List.Lex (· < ·) (u ++ s) (u ++ t) := by
  induction u with
  | nil => exact h
  | cons a as ih => exact List.Lex.cons ih

theorem natDigits_lex (b : Nat) : ∀ a, a < b →
    (natDigits a).length = (natDigits b).length →
    List.Lex (· < ·) (natDigits a) (natDigits b) := by
  induction b using Nat.strong_induction_on with
  | _ b ih =>
    intro a hab hlen
    by_cases hb : b < 10
    · rw [natDigits_eq a, if_pos (by omega), natDigits_eq b, if_pos hb]
      exact List.Lex.rel (digitChar_lt a (by omega) b hb hab)
    · by_cases ha : a < 10
      · exfalso
        have h2 := natDigits_length_ge_two b hb
        rw [natDigits_eq a, if_pos ha] at hlen
        simp at hlen
        omega
      · have hlen' : (natDigits (a / 10)).length = (natDigits (b / 10)).length := by
          rw [natDigits_eq a, if_neg ha, natDigits_eq b, if_neg hb] at hlen
          simp only [List.length_append, List.length_cons, List.length_nil] at hlen
          omega
        rw [natDigits_eq a, if_neg ha, natDigits_eq b, if_neg hb]
        by_cases hq : a / 10 = b / 10
        · rw [hq]
          apply lexlt_append_left
          have hm : a % 10 < b % 10 := by omega
          exact List.Lex.rel
            (digitChar_lt (a % 10) (Nat.mod_lt a (by omega)) (b % 10)
              (Nat.mod_lt b (by omega)) hm)
        · have hq' : a / 10 < b / 10 :=
            Nat.lt_of_le_of_ne (Nat.div_le_div_right (Nat.le_of_lt hab)) hq
          exact lexlt_append hlen'
            (ih (b / 10) (Nat.div_lt_self (by omega) (by omega)) (a / 10) hq' hlen')

theorem padChars_length {w n : Nat} (h : (natDigits n).length ≤ w) :
    (padChars w n).length = w := by
  unfold padChars
  simp only [List.length_append, List.length_replicate]
  omega

theorem padChars_lex {w a b : Nat} (hab : a < b)
    (hb : (natDigits b).length ≤ w) :
    List.Lex (· < ·) (padChars w a) (padChars w b) := by
  have hlab : (natDigits a).length ≤ (natDigits b).length :=
    natDigits_length_mono b a (Nat.le_of_lt hab)
  by_cases heq : (natDigits a).length = (natDigits b).length
  · unfold padChars
    rw [heq]
    exact lexlt_append_left _ (natDigits_lex b a hab heq)
  · have hlt : (natDigits a).length < (natDigits b).length := by omega
    unfold padChars
    have hsplit : List.replicate (w - (natDigits a).length) '0' =
        List.replicate (w - (natDigits b).length) '0' ++
          List.replicate ((natDigits b).length - (natDigits a).length) '0' := by
      rw [← List.replicate_add]
      congr 1
      omega
    rw [hsplit, List.append_assoc]
    apply lexlt_append_left
    obtain ⟨c, cs, hc⟩ := List.exists_cons_of_ne_nil (natDigits_ne_nil b)
    have hbne : b ≠ 0 := by
      intro h0
      rw [h0] at hlt
      have h1 : (natDigits 0).length = 1 := by rw [natDigits_eq]; simp
      have := natDigits_length_pos a
      omega
    have hrep : List.replicate ((natDigits b).length - (natDigits a).length) '0' =
        '0' :: List.replicate ((natDigits b).length - (natDigits a).length - 1) '0' := by
      cases hd : (natDigits b).length - (natDigits a).length with
      | zero => omega
      | succ k => rw [List.replicate_succ]; simp
    rw [hrep, List.cons_append, hc]
    exact List.Lex.rel (natDigits_head_gt b hbne c cs hc)

theorem string_lt_of_lex {s t : String} (h : List.Lex (· < ·) s.data t.data) :
    s < t := by
  rw [String.lt_iff_toList_lt]
  exact h

/-! The built filenames compare lexicographically like (date, counter). -/

theorem digits_len_le_two {n : Nat} (h : n ≤ 99) : (natDigits n).length ≤ 2 := by
  apply natDigits_length_le 2 n ?_ (by omega)
  have h2 : (10:Nat) ^ 2 = 100 := by norm_num
  omega

theorem digits_len_le_three {n : Nat} (h : n ≤ 999) : (natDigits n).length ≤ 3 := by
  apply natDigits_length_le 3 n ?_ (by omega)
  have h3 : (10:Nat) ^ 3 = 1000 := by norm_num
  omega

theorem digits_len_le_four {n : Nat} (h : n ≤ 9999) : (natDigits n).length ≤ 4 := by
  apply natDigits_length_le 4 n ?_ (by omega)
  have h4 : (10:Nat) ^ 4 = 10000 := by norm_num
  omega

theorem newFilename_data (t : DateTime) (c : Nat) (old : String) :
    (newFilename t c old).data =
      padChars 4 t.year ++ '-' :: (padChars 2 t.month ++ '-' ::
        (padChars 2 t.day ++ '-' :: (padChars 3 c ++ (extFor old).data))) := by
  show (dateStr t ++ "-" ++ padNum 3 c ++ extFor old).data = _
  simp only [dateStr, padNum, String.data_append]
  simp [List.append_assoc]

theorem newFilename_lt {t1 t2 : DateTime} {c1 c2 : Nat} (o1 o2 : String)
    (hble : DateTime.ble t1 t2 = true) (hc : c1 < c2) (hc2 : c2 ≤ 999)
    (hv1 : t1.Valid) (hv2 : t2.Valid) :
    newFilename t1 c1 o1 < newFilename t2 c2 o2 := by
  obtain ⟨hy1a, hy1b, hm1a, hm1b, hd1a, hd1b, -, -, -⟩ := hv1
  obtain ⟨hy2a, hy2b, hm2a, hm2b, hd2a, hd2b, -, -, -⟩ := hv2
  apply string_lt_of_lex
  rw [newFilename_data, newFilename_data]
  have hylen1 : (natDigits t1.year).length ≤ 4 := digits_len_le_four hy1b
  have hylen2 : (natDigits t2.year).length ≤ 4 := digits_len_le_four hy2b
  have hmlen1 : (natDigits t1.month).length ≤ 2 := digits_len_le_two (by omega)
  have hmlen2 : (natDigits t2.month).length ≤ 2 := digits_len_le_two (by omega)
  have hdlen1 : (natDigits t1.day).length ≤ 2 := digits_len_le_two (by omega)
  have hdlen2 : (natDigits t2.day).length ≤ 2 := digits_len_le_two (by omega)
  have hclen2 : (natDigits c2).length ≤ 3 := digits_len_le_three hc2
  rw [DateTime.ble_iff] at hble
  rcases hble with hy | ⟨hyeq, hrest⟩
  · exact lexlt_append
      (by rw [padChars_length hylen1, padChars_length hylen2])
      (padChars_lex hy hylen2)
  · rw [hyeq]
    apply lexlt_append_left
    apply List.Lex.cons
    rcases hrest with hm | ⟨hmeq, hrest⟩
    · exact lexlt_append
        (by rw [padChars_length hmlen1, padChars_length hmlen2])
        (padChars_lex hm hmlen2)
    · rw [hmeq]
      apply lexlt_append_left
      apply List.Lex.cons
      rcases hrest with hd | ⟨hdeq, -⟩
      · exact lexlt_append
          (by rw [padChars_length hdlen1, padChars_length hdlen2])
          (padChars_lex hd hdlen2)
      · rw [hdeq]
        apply lexlt_append_left
        apply List.Lex.cons
        exact lexlt_append
          (by rw [padChars_length (digits_len_le_three (by omega)),
            padChars_length hclen2])
          (padChars_lex hc hclen2)

/-! Lemmas about str.lower, os.path.splitext and the extension logic. -/

theorem toLowerChar_dot {c : Char} (h : toLowerChar c = '.') : c = '.' := by
  unfold toLowerChar at h
  cases hf : lowerPairs.find? (fun p => p.1 == c) with
  | none => rw [hf] at h; exact h
  | some p =>
    rw [hf] at h
    exfalso
    have hp : p ∈ lowerPairs := List.mem_of_find?_eq_some hf
    have : ∀ q ∈ lowerPairs, ¬ q.2 = '.' := by decide
    exact this p hp h

theorem dropWhile_append_of_all {p : Char → Bool} {u : List Char} (v : List Char)
    (hu : ∀ c ∈ u, p c = true) : (u ++ v).dropWhile p = v.dropWhile p := by
  induction u with
  | nil => rfl
  | cons a as ih =>
    rw [List.cons_append, List.dropWhile_cons,
      if_pos (hu a (List.mem_cons_self _ _))]
    exact ih fun c hc => hu c (List.mem_cons_of_mem _ hc)

theorem takeWhile_append_of_all {p : Char → Bool} {u : List Char} (v : List Char)
    (hu : ∀ c ∈ u, p c = true) : (u ++ v).takeWhile p = u ++ v.takeWhile p := by
  induction u with
  | nil => rfl
  | cons a as ih =>
    rw [List.cons_append, List.takeWhile_cons,
      if_pos (hu a (List.mem_cons_self _ _)), List.cons_append,
      ih fun c hc => hu c (List.mem_cons_of_mem _ hc)]

theorem splitextExt_eq_of_data {s : String} {pre ls : List Char}
    (hdata : s.data = pre ++ '.' :: ls)
    (hpre : ∃ c ∈ pre, ¬ c = '.') (hls : ∀ c ∈ ls, ¬ c = '.') :
    splitextExt s = String.mk ('.' :: ls) := by
  unfold splitextExt
  rw [hdata]
  have hrev : (pre ++ '.' :: ls).reverse = ls.reverse ++ '.' :: pre.reverse := by
    rw [List.reverse_append, List.reverse_cons, List.append_assoc]
    simp
  rw [hrev]
  have hlsall : ∀ c ∈ ls.reverse, (!(c == '.')) = true := by
    intro c hc
    simp only [List.mem_reverse] at hc
    simp [hls c hc]
  rw [dropWhile_append_of_all _ hlsall, List.dropWhile_cons]
  simp only [beq_self_eq_true, Bool.not_true, if_false, Bool.false_eq_true,
    if_neg]
  have hallfalse : (pre.reverse).all (fun c => c == '.') = false := by
    rw [List.all_eq_false]
    obtain ⟨c, hc, hcd⟩ := hpre
    exact ⟨c, List.mem_reverse.mpr hc, by simp [hcd]⟩
  rw [hallfalse]
  simp only [Bool.false_eq_true, if_neg, if_false]
  rw [takeWhile_append_of_all _ hlsall, List.takeWhile_cons]
  simp

theorem splitextExt_dots_of_data {s : String} {pre ls : List Char}
    (hdata : s.data = pre ++ '.' :: ls)
    (hpre : ∀ c ∈ pre, c = '.') (hls : ∀ c ∈ ls, ¬ c = '.') :
    splitextExt s = "" := by
  unfold splitextExt
  rw [hdata]
  have hrev : (pre ++ '.' :: ls).reverse = ls.reverse ++ '.' :: pre.reverse := by
    rw [List.reverse_append, List.reverse_cons, List.append_assoc]
    simp
  rw [hrev]
  have hlsall : ∀ c ∈ ls.reverse, (!(c == '.')) = true := by
    intro c hc
    simp only [List.mem_reverse] at hc
    simp [hls c hc]
  rw [dropWhile_append_of_all _ hlsall, List.dropWhile_cons]
  simp only [beq_self_eq_true, Bool.not_true, Bool.false_eq_true, if_neg,
    if_false]
  have halltrue : (pre.reverse).all (fun c => c == '.') = true := by
    rw [List.all_eq_true]
    intro c hc
    simp [hpre c (List.mem_reverse.mp hc)]
  rw [halltrue]
  simp

theorem lowerStr_data (s : String) : (lowerStr s).data = s.data.map toLowerChar :=
  rfl

theorem extFor_eq_of_suffix (ls : List Char) {old : String}
    (hld : ∀ c ∈ ls, ¬ c = '.')
    (hew : endsWithStr (lowerStr old) (String.mk ('.' :: ls)) = true) :
    extFor old = String.mk ('.' :: ls) ∨ extFor old = ".jpg" := by
  unfold endsWithStr at hew
  rw [List.isPrefixOf_iff_prefix] at hew
  obtain ⟨v, hv⟩ := hew
  have hlow : (lowerStr old).data = v.reverse ++ '.' :: ls := by
    have h2 := congrArg List.reverse hv
    rw [List.reverse_append, List.reverse_reverse, List.reverse_reverse] at h2
    exact h2.symm
  have hmap : old.data.map toLowerChar = v.reverse ++ '.' :: ls := by
    rw [← lowerStr_data]
    exact hlow
  rw [List.map_eq_append_iff] at hmap
  obtain ⟨l₁, l₂, hsplit, hm1, hm2⟩ := hmap
  rw [List.map_eq_cons_iff] at hm2
  obtain ⟨a, l₃, hl2, ha, hm3⟩ := hm2
  have had : a = '.' := toLowerChar_dot ha
  subst had
  have hdata : old.data = l₁ ++ '.' :: l₃ := by rw [hsplit, hl2]
  have hl3d : ∀ c ∈ l₃, ¬ c = '.' := by
    intro c hc hcd
    have hmem : toLowerChar c ∈ ls := by
      rw [← hm3]
      exact List.mem_map_of_mem _ hc
    rw [hcd] at hmem
    have hdot : toLowerChar '.' = '.' := by decide
    rw [hdot] at hmem
    exact hld '.' hmem rfl
  by_cases hall : ∀ c ∈ l₁, c = '.'
  · right
    have hsp := splitextExt_dots_of_data hdata hall hl3d
    unfold extFor
    rw [hsp]
    decide
  · left
    push_neg at hall
    have hsp := splitextExt_eq_of_data hdata hall hl3d
    unfold extFor
    rw [hsp]
    have hlower : lowerStr (String.mk ('.' :: l₃)) = String.mk ('.' :: ls) := by
      show String.mk (('.' :: l₃).map toLowerChar) = _
      rw [List.map_cons, hm3]
      have hdot : toLowerChar '.' = '.' := by decide
      rw [hdot]
    rw [hlower]
    rw [if_neg (fun hfalse =>
      List.cons_ne_nil '.' ls (congrArg String.data hfalse))]

theorem extFor_mem {old : String} (h : isImageName old = true) :
    extFor old = ".jpg" ∨ extFor old = ".jpeg" ∨ extFor old = ".png" := by
  unfold isImageName at h
  simp only [Bool.or_eq_true] at h
  rcases h with (h | h) | h
  · have h' : endsWithStr (lowerStr old) (String.mk ('.' :: ['j','p','g'])) = true := h
    rcases extFor_eq_of_suffix ['j','p','g'] (by decide) h' with he | he
    · exact Or.inl he
    · exact Or.inl he
  · have h' : endsWithStr (lowerStr old) (String.mk ('.' :: ['j','p','e','g'])) = true := h
    rcases extFor_eq_of_suffix ['j','p','e','g'] (by decide) h' with he | he
    · exact Or.inr (Or.inl he)
    · exact Or.inl he
  · have h' : endsWithStr (lowerStr old) (String.mk ('.' :: ['p','n','g'])) = true := h
    rcases extFor_eq_of_suffix ['p','n','g'] (by decide) h' with he | he
    · exact Or.inr (Or.inr he)
    · exact Or.inl he

/-! Character facts about the built names. -/

theorem padChars_no_dot (w n : Nat) : ∀ c ∈ padChars w n, ¬ c = '.' := by
  intro c hc
  unfold padChars at hc
  rcases List.mem_append.mp hc with h | h
  · rw [List.eq_of_mem_replicate h]; decide
  · obtain ⟨m, hm, rfl⟩ := natDigits_chars n c h
    intro hcd
    have hf := (digitChar_facts m).1
    rw [hcd] at hf
    simp at hf

theorem padChars_lower_fixed (w n : Nat) :
    ∀ c ∈ padChars w n, toLowerChar c = c := by
  intro c hc
  unfold padChars at hc
  rcases List.mem_append.mp hc with h | h
  · rw [List.eq_of_mem_replicate h]; decide
  · obtain ⟨m, hm, rfl⟩ := natDigits_chars n c h
    exact (digitChar_facts m).2.2

theorem padChars_digits (w n : Nat) :
    ∀ c ∈ padChars w n, isDigitChar c = true := by
  intro c hc
  unfold padChars at hc
  rcases List.mem_append.mp hc with h | h
  · rw [List.eq_of_mem_replicate h]; decide
  · obtain ⟨m, hm, rfl⟩ := natDigits_chars n c h
    exact digitChar_isDigit hm

theorem newFilename_data_flat (t : DateTime) (c : Nat) (old : String) :
    (newFilename t c old).data =
      (padChars 4 t.year ++ '-' :: (padChars 2 t.month ++ '-' ::
        (padChars 2 t.day ++ '-' :: padChars 3 c))) ++ (extFor old).data := by
  rw [newFilename_data]
  simp [List.append_assoc]

theorem namePre_has_nondot (t : DateTime) (c : Nat) :
    ∃ ch ∈ padChars 4 t.year ++ '-' :: (padChars 2 t.month ++ '-' ::
      (padChars 2 t.day ++ '-' :: padChars 3 c)), ¬ ch = '.' := by
  refine ⟨'-', ?_, by decide⟩
  exact List.mem_append_right _ (List.mem_cons_self _ _)

theorem namePre_no_dot (t : DateTime) (c : Nat) :
    ∀ ch ∈ padChars 4 t.year ++ '-' :: (padChars 2 t.month ++ '-' ::
      (padChars 2 t.day ++ '-' :: padChars 3 c)), ¬ ch = '.' := by
  intro ch hch
  rcases List.mem_append.mp hch with h | h
  · exact padChars_no_dot 4 t.year ch h
  · rcases List.mem_cons.mp h with rfl | h
    · decide
    · rcases List.mem_append.mp h with h | h
      · exact padChars_no_dot 2 t.month ch h
      · rcases List.mem_cons.mp h with rfl | h
        · decide
        · rcases List.mem_append.mp h with h | h
          · exact padChars_no_dot 2 t.day ch h
          · rcases List.mem_cons.mp h with rfl | h
            · decide
            · exact padChars_no_dot 3 c ch h

theorem splitextExt_newFilename (t : DateTime) (c : Nat) {old : String}
    (h : isImageName old = true) :
    splitextExt (newFilename t c old) = extFor old := by
  have hpre := namePre_has_nondot t c
  rcases extFor_mem h with he | he | he <;> rw [he]
  · have hdata : (newFilename t c old).data =
        (padChars 4 t.year ++ '-' :: (padChars 2 t.month ++ '-' ::
          (padChars 2 t.day ++ '-' :: padChars 3 c))) ++ '.' :: ['j','p','g'] := by
      rw [newFilename_data_flat, he]
    exact splitextExt_eq_of_data hdata hpre (by decide)
  · have hdata : (newFilename t c old).data =
        (padChars 4 t.year ++ '-' :: (padChars 2 t.month ++ '-' ::
          (padChars 2 t.day ++ '-' :: padChars 3 c))) ++ '.' :: ['j','p','e','g'] := by
      rw [newFilename_data_flat, he]
    exact splitextExt_eq_of_data hdata hpre (by decide)
  · have hdata : (newFilename t c old).data =
        (padChars 4 t.year ++ '-' :: (padChars 2 t.month ++ '-' ::
          (padChars 2 t.day ++ '-' :: padChars 3 c))) ++ '.' :: ['p','n','g'] := by
      rw [newFilename_data_flat, he]
    exact splitextExt_eq_of_data hdata hpre (by decide)

theorem extFor_concrete (s : String) (e : String) (h : splitextExt s = e) :
    extFor s = if lowerStr e = "" then ".jpg" else lowerStr e := by
  unfold extFor
  rw [h]

theorem extFor_newFilename (t : DateTime) (c : Nat) {old : String}
    (h : isImageName old = true) :
    extFor (newFilename t c old) = extFor old := by
  rw [extFor_concrete _ _ (splitextExt_newFilename t c h)]
  rcases extFor_mem h with he | he | he <;> rw [he] <;> decide

theorem endsWith_of_data_eq {s t : String} (u : List Char)
    (hs : s.data = u ++ t.data) : endsWithStr s t = true := by
  unfold endsWithStr
  rw [List.isPrefixOf_iff_prefix, hs, List.reverse_append]
  exact List.prefix_append _ _

theorem isImageName_newFilename (t : DateTime) (c : Nat) {old : String}
    (h : isImageName old = true) : isImageName (newFilename t c old) = true := by
  rcases extFor_mem h with he | he | he
  · have hdata : (lowerStr (newFilename t c old)).data =
        ((padChars 4 t.year ++ '-' :: (padChars 2 t.month ++ '-' ::
          (padChars 2 t.day ++ '-' :: padChars 3 c))).map toLowerChar) ++
          (".jpg" : String).data := by
      rw [lowerStr_data, newFilename_data_flat, he, List.map_append]
      congr 1
    have hend := endsWith_of_data_eq _ hdata
    unfold isImageName
    simp [hend]
  · have hdata : (lowerStr (newFilename t c old)).data =
        ((padChars 4 t.year ++ '-' :: (padChars 2 t.month ++ '-' ::
          (padChars 2 t.day ++ '-' :: padChars 3 c))).map toLowerChar) ++
          (".jpeg" : String).data := by
      rw [lowerStr_data, newFilename_data_flat, he, List.map_append]
      congr 1
    have hend := endsWith_of_data_eq _ hdata
    unfold isImageName
    simp [hend]
  · have hdata : (lowerStr (newFilename t c old)).data =
        ((padChars 4 t.year ++ '-' :: (padChars 2 t.month ++ '-' ::
          (padChars 2 t.day ++ '-' :: padChars 3 c))).map toLowerChar) ++
          (".png" : String).data := by
      rw [lowerStr_data, newFilename_data_flat, he, List.map_append]
      congr 1
    have hend := endsWith_of_data_eq _ hdata
    unfold isImageName
    simp [hend]

theorem list_len4 {l : List Char} (h : l.length = 4) :
    ∃ a b c d, l = [a, b, c, d] := by
  cases l with
  | nil => simp at h
  | cons a l1 =>
    have h3 : l1.length = 3 := by
      simp only [List.length_cons] at h
      omega
    obtain ⟨b, c, d, hl⟩ := List.length_eq_three.mp h3
    exact ⟨a, b, c, d, by rw [hl]⟩

theorem matchesPattern_newFilename (t : DateTime) (c : Nat) {old : String}
    (him : isImageName old = true) (hv : t.Valid) (hc : c ≤ 999) :
    matchesPattern (newFilename t c old) = true := by
  obtain ⟨hy1, hy2, hm1, hm2, hd1, hd2, -, -, -⟩ := hv
  have h4 : (padChars 4 t.year).length = 4 :=
    padChars_length (digits_len_le_four hy2)
  have hml : (padChars 2 t.month).length = 2 :=
    padChars_length (digits_len_le_two (by omega))
  have hdl : (padChars 2 t.day).length = 2 :=
    padChars_length (digits_len_le_two (by omega))
  have h3 : (padChars 3 c).length = 3 :=
    padChars_length (digits_len_le_three hc)
  obtain ⟨y1, y2, y3, y4, hy⟩ := list_len4 h4
  obtain ⟨m1, m2, hmo⟩ := List.length_eq_two.mp hml
  obtain ⟨d1, d2, hda⟩ := List.length_eq_two.mp hdl
  obtain ⟨c1, c2, c3, hcc⟩ := List.length_eq_three.mp h3
  have hy1d : isDigitChar y1 = true :=
    padChars_digits 4 t.year y1 (by rw [hy]; simp)
  have hy2d : isDigitChar y2 = true :=
    padChars_digits 4 t.year y2 (by rw [hy]; simp)
  have hy3d : isDigitChar y3 = true :=
    padChars_digits 4 t.year y3 (by rw [hy]; simp)
  have hy4d : isDigitChar y4 = true :=
    padChars_digits 4 t.year y4 (by rw [hy]; simp)
  have hm1d : isDigitChar m1 = true :=
    padChars_digits 2 t.month m1 (by rw [hmo]; simp)
  have hm2d : isDigitChar m2 = true :=
    padChars_digits 2 t.month m2 (by rw [hmo]; simp)
  have hd1d : isDigitChar d1 = true :=
    padChars_digits 2 t.day d1 (by rw [hda]; simp)
  have hd2d : isDigitChar d2 = true :=
    padChars_digits 2 t.day d2 (by rw [hda]; simp)
  have hc1d : isDigitChar c1 = true :=
    padChars_digits 3 c c1 (by rw [hcc]; simp)
  have hc2d : isDigitChar c2 = true :=
    padChars_digits 3 c c2 (by rw [hcc]; simp)
  have hc3d : isDigitChar c3 = true :=
    padChars_digits 3 c c3 (by rw [hcc]; simp)
  unfold matchesPattern
  rw [newFilename_data, hy, hmo, hda, hcc]
  rcases extFor_mem him with he | he | he <;> rw [he] <;>
    simp [hy1d, hy2d, hy3d, hy4d, hm1d, hm2d, hd1d, hd2d, hc1d, hc2d, hc3d]

/-! Permutation and indexing lemmas for the pipeline. -/

theorem perm_insertByDate (x : DateTime × String) (l : List (DateTime × String)) :
    List.Perm (insertByDate x l) (x :: l) := by
  induction l with
  | nil => exact List.Perm.refl _
  | cons h t ih =>
    simp only [insertByDate]
    by_cases hc : DateTime.ble x.1 h.1 = true
    · rw [if_pos hc]
    · rw [if_neg hc]
      exact List.Perm.trans (List.Perm.cons h ih) (List.Perm.swap x h t)

theorem perm_sortByDate (l : List (DateTime × String)) :
    List.Perm (sortByDate l) l := by
  induction l with
  | nil => exact List.Perm.refl _
  | cons h t ih =>
    exact List.Perm.trans (perm_insertByDate h (sortByDate t))
      (List.Perm.cons h ih)

theorem datedFiles_snd (d : Dir) (now : DateTime) :
    (datedFiles d now).map (fun p => p.2) = listImages d := by
  unfold datedFiles
  rw [List.map_map]
  exact List.map_id _

theorem mem_datedFiles_isImage {d : Dir} {now : DateTime}
    {p : DateTime × String} (hp : p ∈ datedFiles d now) :
    isImageName p.2 = true := by
  unfold datedFiles at hp
  obtain ⟨q, hq, rfl⟩ := List.mem_map.mp hp
  exact (List.mem_filter.mp hq).2

theorem mem_datedFiles_entry {d : Dir} {now : DateTime}
    {p : DateTime × String} (hp : p ∈ datedFiles d now) :
    ∃ e ∈ d, e.name = p.2 := by
  have himg : p.2 ∈ listImages d := by
    unfold datedFiles at hp
    obtain ⟨q, hq, rfl⟩ := List.mem_map.mp hp
    exact hq
  unfold listImages dirNames at himg
  have hmem := List.mem_of_mem_filter himg
  obtain ⟨e, he, hn⟩ := List.mem_map.mp hmem
  exact ⟨e, he, hn⟩

theorem process_category_errors (d : Dir) (now : DateTime)
    (hnd : (dirNames d).Nodup) : (process_category d now).errors = [] := by
  unfold process_category
  apply renameLoop_errors
  · intro p hp
    exact mem_datedFiles_entry (mem_sortByDate.mp hp)
  · have hperm : List.Perm
        ((sortByDate (datedFiles d now)).map (fun p => p.2))
        ((datedFiles d now).map (fun p => p.2)) :=
      (perm_sortByDate (datedFiles d now)).map _
    rw [(hperm.nodup_iff), datedFiles_snd]
    exact hnd.filter _

theorem assignNames_length (l : List (DateTime × String)) :
    ∀ c, (assignNames l c).length = l.length := by
  induction l with
  | nil => intro c; rfl
  | cons p rest ih =>
    intro c
    obtain ⟨t, old⟩ := p
    simp [assignNames, ih]

theorem assignNames_getElem? (l : List (DateTime × String)) :
    ∀ (c i : Nat), (assignNames l c)[i]? =
      l[i]?.map (fun p => newFilename p.1 (c + i) p.2) := by
  induction l with
  | nil => intro c i; simp [assignNames]
  | cons p rest ih =>
    intro c i
    obtain ⟨t, old⟩ := p
    cases i with
    | zero => simp [assignNames]
    | succ j =>
      simp only [assignNames, List.getElem?_cons_succ]
      rw [ih (c + 1) j]
      have hc : c + 1 + j = c + (j + 1) := by omega
      rw [hc]

/-! The timestamp resolution chain. -/

theorem get_photo_date_eq_amended (img : ImageFile) (now : DateTime) :
    get_photo_date img now = amendedPhotoDate img now := by
  unfold get_photo_date get_exif_date amendedPhotoDate
  cases hx : img.exif with
  | none => rfl
  | some exif =>
    show (findExifDate exif exifTags).getD (get_file_date img now) = _
    unfold exifTags findExifDate
    rcases h1 : lookupTag exif 36867 with _ | (_ | d1) <;>
      rcases h2 : lookupTag exif 306 with _ | (_ | d2) <;>
        rcases h3 : lookupTag exif 36868 with _ | (_ | d3) <;>
          simp [findExifDate, h1, h2, h3]

/-! Log membership carries the built-name structure. -/

theorem renameLoop_log_mem (l : List (DateTime × String)) :
    ∀ (d : Dir) (c : Nat) (en : LogEntry), en ∈ (renameLoop d c l).log →
    ∃ t c', (t, en.oldName) ∈ l ∧ en.newName = newFilename t c' en.oldName := by
  induction l with
  | nil => intro d c en h; simp [renameLoop] at h
  | cons p rest ih =>
    intro d c en h
    obtain ⟨t, old⟩ := p
    simp only [renameLoop] at h
    cases hr : osRename d old (newFilename t c old) with
    | some d' =>
      rw [hr] at h
      simp only [List.mem_cons] at h
      rcases h with rfl | h
      · exact ⟨t, c, List.mem_cons_self _ _, rfl⟩
      · obtain ⟨t', c', hm, hn⟩ := ih d' (c + 1) en h
        exact ⟨t', c', List.mem_cons_of_mem _ hm, hn⟩
    | none =>
      rw [hr] at h
      simp only [List.mem_cons] at h
      rcases h with rfl | h
      · exact ⟨t, c, List.mem_cons_self _ _, rfl⟩
      · obtain ⟨t', c', hm, hn⟩ := ih d (c + 1) en h
        exact ⟨t', c', List.mem_cons_of_mem _ hm, hn⟩


/-- C1: the claim says the NNN counter resets to 1 at each date boundary,
so three files dated 2024-01-01, 2024-01-01, 2024-01-02 would be named
001, 002, 001.  The code keeps one counter for the whole directory: the
third file is named 2024-01-02-003.jpg, not 2024-01-02-001.jpg. -/
theorem C1_counterexample :
    ((process_category exDirC1 exNow).log.map (fun e => (e.oldName, e.newName))) =
      [("a.jpg", "2024-01-01-001.jpg"), ("b.jpg", "2024-01-01-002.jpg"),
       ("c.jpg", "2024-01-02-003.jpg")] ∧
    "2024-01-02-003.jpg" ≠ "2024-01-02-001.jpg" := by
  exact ⟨by decide, by decide⟩

/-- C1 amended: the counter starts at 1 and increases by 1 for every file
of the directory in timestamp-sorted order, never resetting at a date
boundary: the names the run builds are exactly assignNames of the sorted
list with counter values 1, 2, 3, ...; in particular the three files dated
2024-01-01, 2024-01-01, 2024-01-02 are named 2024-01-01-001.jpg,
2024-01-01-002.jpg and 2024-01-02-003.jpg. -/
theorem C1_amended :
    (∀ (d : Dir) (now : DateTime),
      ((process_category d now).log.map (fun e => e.newName)) =
        assignNames (sortByDate (datedFiles d now)) 1) ∧
    ((process_category exDirC1 exNow).log.map (fun e => e.newName)) =
      ["2024-01-01-001.jpg", "2024-01-01-002.jpg", "2024-01-02-003.jpg"] := by
  constructor
  · intro d now
    exact renameLoop_log_newNames _ _ _
  · decide

/-- C2: the claim says a rename landing on an existing name is skipped and
reported.  With POSIX rename semantics the code instead replaces the
existing file silently: in exDirColl the file with id 2 is overwritten,
no error is reported, and both renames are logged as successful. -/
theorem C2_counterexample :
    (process_category exDirColl exNow).errors = [] ∧
    (process_category exDirColl exNow).log.map (fun e => (e.newName, e.ok)) =
      [("2024-01-01-001.jpg", true), ("2024-01-02-002.jpg", true)] ∧
    (process_category exDirColl exNow).dir =
      [ { name := "2024-01-02-002.jpg", fileId := 1,
          img := mtimeImg (mkDT 2024 1 1 10 0) } ] ∧
    ¬ ∃ e ∈ (process_category exDirColl exNow).dir, e.fileId = 2 := by
  exact ⟨by decide, by decide, by decide, by decide⟩

/-- C2 amended: the code never checks the destination for existence; under
POSIX rename semantics a collision silently replaces the existing file and
no error is reported.  A file is skipped with a reported error only when
os.rename itself raises, which cannot happen here: for any directory with
distinct entry names the error list of a run is empty. -/
theorem C2_amended :
    (∀ (d : Dir) (now : DateTime), (dirNames d).Nodup →
      (process_category d now).errors = []) ∧
    (process_category exDirColl exNow).dir.length = 1 := by
  constructor
  · intro d now hnd
    exact process_category_errors d now hnd
  · decide

/-- C2 amended, witnessed at the collision directory. -/
theorem C2_amended_witness :
    (dirNames exDirColl).Nodup ∧ (process_category exDirColl exNow).errors = [] :=
  ⟨by decide, C2_amended.1 exDirColl exNow (by decide)⟩

/-- C3: the claim says the returned value counts only successful renames.
In exDirColl the run returns 2, yet only one file remains: the file with
id 2 was destroyed, not renamed, and nothing was subtracted. -/
theorem C3_counterexample :
    (process_category exDirColl exNow).count = 2 ∧
    (process_category exDirColl exNow).dir.map (fun e => e.fileId) = [1] ∧
    ¬ ∃ e ∈ (process_category exDirColl exNow).dir, e.fileId = 2 := by
  exact ⟨by decide, by decide, by decide⟩

/-- C3 amended: the counter is incremented once per image file regardless
of the rename outcome, so process_category always returns the number of
image files it listed in the directory. -/
theorem C3_amended : ∀ (d : Dir) (now : DateTime),
    (process_category d now).count = (listImages d).length :=
  process_category_count

/-- C4: the claim's four-step chain omits EXIF tag 36868
(DateTimeDigitized).  A file whose only parseable tag is 36868 is dated
from that tag by the code, while the claim's chain would use the
modification time. -/
theorem C4_counterexample :
    get_photo_date exImgC4 exNow = mkDT 2022 7 4 8 30 ∧
    specPhotoDate exImgC4 exNow = mkDT 2023 5 1 10 0 ∧
    get_photo_date exImgC4 exNow ≠ specPhotoDate exImgC4 exNow := by
  exact ⟨by decide, by decide, by decide⟩

/-- C4 amended: the ordered chain is tag 36867, then tag 306, then tag
36868, then the filesystem modification time, then the current time, first
success winning; the claim's two examples hold: valid original-capture
metadata wins over a differing modification time, and a file with no
embedded metadata is dated from its modification time. -/
theorem C4_amended :
    (∀ (img : ImageFile) (now : DateTime),
      get_photo_date img now = amendedPhotoDate img now) ∧
    get_photo_date (mtimeImg (mkDT 2023 5 1 10 0)) exNow = mkDT 2023 5 1 10 0 ∧
    get_photo_date
      { exif := some [(36867, some (mkDT 2022 7 4 8 30))],
        mtime := some (mkDT 2023 5 1 10 0) } exNow = mkDT 2022 7 4 8 30 := by
  refine ⟨get_photo_date_eq_amended, by decide, by decide⟩

/-- C5: the claim says a second run on the unchanged output of a first run
renames nothing.  After the first run on exDirColl the surviving file is
named 2024-01-02-002.jpg but resolves to date 2024-01-01, so the second
run renames it to 2024-01-01-001.jpg: the directory changes although no
file content or timestamp changed between the runs. -/
theorem C5_counterexample :
    (process_category ((process_category exDirColl exNow).dir) exNow).dir ≠
      (process_category exDirColl exNow).dir ∧
    (process_category ((process_category exDirColl exNow).dir) exNow).log.map
      (fun e => (e.oldName, e.newName)) =
      [("2024-01-02-002.jpg", "2024-01-01-001.jpg")] := by
  exact ⟨by decide, by decide⟩

/-- C8: the extension of every name built by a run is the lower-cased
splitext extension of the file's old name, with ".jpg" as the default when
splitext detects no extension; for example IMG_0001.JPEG keeps .jpeg. -/
theorem C8_confirmed :
    (∀ (d : Dir) (now : DateTime) (en : LogEntry),
      en ∈ (process_category d now).log →
      splitextExt en.newName = extFor en.oldName ∧
      (splitextExt en.oldName = "" → extFor en.oldName = ".jpg")) ∧
    extFor "IMG_0001.JPEG" = ".jpeg" := by
  constructor
  · intro d now en hen
    obtain ⟨t, c', hmem, hname⟩ := renameLoop_log_mem _ _ _ en hen
    have himg : isImageName en.oldName = true :=
      mem_datedFiles_isImage (mem_sortByDate.mp hmem)
    constructor
    · rw [hname]
      exact splitextExt_newFilename t c' himg
    · intro hempty
      unfold extFor
      rw [hempty]
      decide
  · decide

/-- C8 witnessed on the first file of exDirC1. -/
theorem C8_witness :
    splitextExt "2024-01-01-001.jpg" = extFor "a.jpg" :=
  (C8_confirmed.1 exDirC1 exNow
    { oldName := "a.jpg", newName := "2024-01-01-001.jpg", ok := true }
    (by decide)).1

/-- C9: the sort of the dated file list is stable: the files carrying any
fixed resolved timestamp appear in the sorted list in exactly their
original listing order. -/
theorem C9_confirmed : ∀ (d : Dir) (now : DateTime) (t : DateTime),
    (sortByDate (datedFiles d now)).filter (fun p => p.1 == t) =
      (datedFiles d now).filter (fun p => p.1 == t) :=
  fun d now t => sortByDate_stable (datedFiles d now) t

/-- C10: get_photo_date is total over every environment: a parsed EXIF
date is returned when one exists; otherwise the modification time when
the filesystem yields one; otherwise the current time.  No input leads to
anything but one of these three values. -/
theorem C10_confirmed : ∀ (img : ImageFile) (now : DateTime),
    (∀ dt, get_exif_date img = some dt → get_photo_date img now = dt) ∧
    (∀ m, get_exif_date img = none → img.mtime = some m →
      get_photo_date img now = m) ∧
    (get_exif_date img = none → img.mtime = none →
      get_photo_date img now = now) := by
  intro img now
  refine ⟨?_, ?_, ?_⟩
  · intro dt h
    simp [get_photo_date, h]
  · intro m h hm
    simp [get_photo_date, get_file_date, h, hm]
  · intro h hm
    simp [get_photo_date, get_file_date, h, hm]


/-- C10 witnessed on the three kinds of environment. -/
theorem C10_witness :
    get_photo_date (mtimeImg (mkDT 2023 5 1 10 0)) exNow = mkDT 2023 5 1 10 0 ∧
    get_photo_date exImgBare exNow = exNow ∧
    get_photo_date exImgOrig exNow = mkDT 2022 7 4 8 30 :=
  ⟨(C10_confirmed _ exNow).2.1 _ (by decide) (by decide),
   (C10_confirmed _ exNow).2.2 (by decide) (by decide),
   (C10_confirmed _ exNow).1 _ (by decide)⟩


theorem get_photo_date_mtimeImg (t now : DateTime) :
    get_photo_date (mtimeImg t) now = t := rfl

theorem bigName_data (i : Nat) :
    (bigName i).data = ('f' :: padChars 3 i) ++ (".jpg" : String).data := by
  unfold bigName padNum
  rw [String.data_append, String.data_append]
  rfl

theorem isImageName_bigName (i : Nat) : isImageName (bigName i) = true := by
  have hdata : (lowerStr (bigName i)).data =
      ('f' :: (padChars 3 i).map toLowerChar) ++ (".jpg" : String).data := by
    rw [lowerStr_data, bigName_data, List.map_append, List.map_cons]
    have h1 : toLowerChar 'f' = 'f' := by decide
    have h2 : (".jpg" : String).data.map toLowerChar = (".jpg" : String).data := by
      decide
    rw [h1, h2]
  unfold isImageName
  rw [endsWith_of_data_eq _ hdata]
  simp

theorem lex_irrefl (l : List Char) : ¬ List.Lex (· < ·) l l := by
  induction l with
  | nil => intro h; cases h
  | cons a as ih =>
    intro h
    cases h with
    | rel hr => exact absurd hr (lt_irrefl a)
    | cons ht => exact ih ht

theorem bigName_inj {i j : Nat} (hi : i ≤ 999) (hj : j ≤ 999) (hne : i ≠ j) :
    bigName i ≠ bigName j := by
  intro heq
  have hd := congrArg String.data heq
  rw [bigName_data, bigName_data] at hd
  have hd2 := (List.append_inj hd (by
    simp only [List.length_cons]
    rw [padChars_length (digits_len_le_three hi),
      padChars_length (digits_len_le_three hj)])).1
  simp only [List.cons.injEq, true_and] at hd2
  rcases Nat.lt_or_ge i j with hlt | hge
  · have := padChars_lex hlt (digits_len_le_three hj)
    rw [hd2] at this
    exact lex_irrefl _ this
  · have hlt : j < i := by omega
    have := padChars_lex hlt (digits_len_le_three hi)
    rw [hd2] at this
    exact lex_irrefl _ this

theorem bigDir_names : dirNames bigDir = (List.range 1000).map bigName := by
  unfold dirNames bigDir
  rw [List.map_map]
  rfl

theorem bigDir_nodup : (dirNames bigDir).Nodup := by
  rw [bigDir_names]
  apply List.Nodup.map_on ?_ (List.nodup_range 1000)
  intro i hi j hj heq
  by_contra hne
  exact bigName_inj (by simp at hi; omega) (by simp at hj; omega) hne heq

theorem bigDir_listImages :
    listImages bigDir = (List.range 1000).map bigName := by
  unfold listImages
  rw [bigDir_names, List.filter_eq_self]
  intro x hx
  obtain ⟨i, _, rfl⟩ := List.mem_map.mp hx
  exact isImageName_bigName i

theorem find?_name_of_mem {d : Dir} {e : Entry} (he : e ∈ d)
    (hnd : (dirNames d).Nodup) :
    d.find? (fun x => x.name == e.name) = some e := by
  induction d with
  | nil => cases he
  | cons f rest ih =>
    unfold dirNames at hnd
    rw [List.map_cons, List.nodup_cons] at hnd
    rcases List.mem_cons.mp he with rfl | hrest
    · simp [List.find?_cons]
    · have hne : f.name ≠ e.name := by
        intro hfe
        exact hnd.1 (hfe ▸ List.mem_map_of_mem (fun x => x.name) hrest)
      have hb : (f.name == e.name) = false := by simp [hne]
      rw [List.find?_cons, hb]
      exact ih hrest hnd.2

theorem dateForPath_of_mem {d : Dir} {e : Entry} (now : DateTime) (he : e ∈ d)
    (hnd : (dirNames d).Nodup) :
    dateForPath d now e.name = get_photo_date e.img now := by
  unfold dateForPath
  rw [find?_name_of_mem he hnd]

theorem bigDir_datedFiles :
    datedFiles bigDir exNow = (List.range 1000).map (fun i => (bigT i, bigName i)) := by
  unfold datedFiles
  rw [bigDir_listImages, List.map_map]
  apply List.map_congr_left
  intro i hi
  show (dateForPath bigDir exNow (bigName i), bigName i) = (bigT i, bigName i)
  have hmem : ({ name := bigName i, fileId := i, img := mtimeImg (bigT i) } :
      Entry) ∈ bigDir :=
    List.mem_map_of_mem _ hi
  have := dateForPath_of_mem exNow hmem bigDir_nodup
  rw [get_photo_date_mtimeImg] at this
  rw [this]

theorem bigT_mono {i j : Nat} (h : i < j) :
    DateTime.ble (bigT i) (bigT j) = true := by
  rw [DateTime.ble_iff]
  refine Or.inr ⟨rfl, Or.inr ⟨rfl, Or.inr ⟨rfl, ?_⟩⟩⟩
  show i / 60 < j / 60 ∨ (i / 60 = j / 60 ∧
    (i % 60 < j % 60 ∨ (i % 60 = j % 60 ∧ (0:Nat) ≤ 0)))
  omega

theorem bigDir_sorted :
    sortByDate (datedFiles bigDir exNow) =
      (List.range 1000).map (fun i => (bigT i, bigName i)) := by
  rw [bigDir_datedFiles]
  apply sortByDate_eq_self
  apply List.Pairwise.map
  · intro a b hab
    exact bigT_mono hab
  · exact List.pairwise_lt_range 1000

theorem bigDir_name_at (i : Nat) (h : i < 1000) :
    ((process_category bigDir exNow).log.map (fun e => e.newName))[i]? =
      some (newFilename (bigT i) (1 + i) (bigName i)) := by
  unfold process_category
  rw [renameLoop_log_newNames, bigDir_sorted, assignNames_getElem?,
    List.getElem?_map, List.getElem?_range h]
  rfl

/-- C6: the claim promises lexicographic order of assigned names for every
pair with tA < tB.  In a directory of 1000 files with strictly increasing
timestamps, the files at sorted positions 998 and 999 receive counters 999
and 1000; the %03d counter grows to four digits and
2024-01-01-1000.jpg sorts lexicographically before 2024-01-01-999.jpg. -/
theorem C6_counterexample :
    (sortByDate (datedFiles bigDir exNow))[998]? = some (bigT 998, bigName 998) ∧
    (sortByDate (datedFiles bigDir exNow))[999]? = some (bigT 999, bigName 999) ∧
    DateTime.blt (bigT 998) (bigT 999) = true ∧
    ((process_category bigDir exNow).log.map (fun e => e.newName))[998]? =
      some "2024-01-01-999.jpg" ∧
    ((process_category bigDir exNow).log.map (fun e => e.newName))[999]? =
      some "2024-01-01-1000.jpg" ∧
    ¬ ("2024-01-01-999.jpg" : String) < "2024-01-01-1000.jpg" ∧
    ("2024-01-01-1000.jpg" : String) < "2024-01-01-999.jpg" := by
  refine ⟨?_, ?_, by decide, ?_, ?_, ?_, ?_⟩
  · rw [bigDir_sorted, List.getElem?_map, List.getElem?_range (by omega)]
    rfl
  · rw [bigDir_sorted, List.getElem?_map, List.getElem?_range (by omega)]
    rfl
  · rw [bigDir_name_at 998 (by omega)]
    decide
  · rw [bigDir_name_at 999 (by omega)]
    decide
  · rw [String.lt_iff_toList_lt]
    decide
  · rw [String.lt_iff_toList_lt]
    decide

/-- C7: in the same 1000-file directory the 1000th produced name is
2024-01-01-1000.jpg, whose counter has four digits, so it does not match
the claimed anchored pattern with exactly three counter digits. -/
theorem C7_counterexample :
    ((process_category bigDir exNow).log.map (fun e => e.newName))[999]? =
      some "2024-01-01-1000.jpg" ∧
    matchesPattern "2024-01-01-1000.jpg" = false := by
  refine ⟨?_, by decide⟩
  rw [bigDir_name_at 999 (by omega)]
  decide

/-- C6 amended: within the three-digit range of the counter the promise
holds.  If the directory lists at most 999 image files and every resolved
timestamp is a valid datetime, then for any positions i, j of the sorted
list whose timestamps satisfy ti < tj, the name logged at position i is
lexicographically smaller than the name logged at position j. -/
theorem C6_amended : ∀ (d : Dir) (now : DateTime) (i j : Nat)
    (ti tj : DateTime) (pi' pj' : String) (ni nj : String),
    (listImages d).length ≤ 999 →
    (∀ p ∈ datedFiles d now, (p.1).Valid) →
    (sortByDate (datedFiles d now))[i]? = some (ti, pi') →
    (sortByDate (datedFiles d now))[j]? = some (tj, pj') →
    ((process_category d now).log.map (fun e => e.newName))[i]? = some ni →
    ((process_category d now).log.map (fun e => e.newName))[j]? = some nj →
    DateTime.blt ti tj = true →
    ni < nj := by
  intro d now i j ti tj pi' pj' ni nj hlen hval hsi hsj hni hnj hlt
  have hslen : (sortByDate (datedFiles d now)).length = (listImages d).length := by
    rw [length_sortByDate]
    unfold datedFiles
    rw [List.length_map]
  have hi : i < (sortByDate (datedFiles d now)).length := by
    by_contra hcon
    rw [List.getElem?_eq_none (by omega)] at hsi
    cases hsi
  have hj : j < (sortByDate (datedFiles d now)).length := by
    by_contra hcon
    rw [List.getElem?_eq_none (by omega)] at hsj
    cases hsj
  have hgi : (sortByDate (datedFiles d now))[i] = (ti, pi') := by
    rw [List.getElem?_eq_getElem hi] at hsi
    exact Option.some.inj hsi
  have hgj : (sortByDate (datedFiles d now))[j] = (tj, pj') := by
    rw [List.getElem?_eq_getElem hj] at hsj
    exact Option.some.inj hsj
  have hij : i < j := by
    rcases Nat.lt_trichotomy i j with h | h | h
    · exact h
    · exfalso
      subst h
      rw [hgi] at hgj
      have hteq : ti = tj := congrArg Prod.fst hgj
      rw [DateTime.blt_iff] at hlt
      rw [hteq] at hlt
      exact hlt (DateTime.ble_refl tj)
    · exfalso
      have hpw := (List.pairwise_iff_getElem.mp
        (sortByDate_pairwise (datedFiles d now))) j i hj hi h
      rw [hgj, hgi] at hpw
      rw [DateTime.blt_iff] at hlt
      exact hlt hpw
  have hlog : (process_category d now).log.map (fun e => e.newName) =
      assignNames (sortByDate (datedFiles d now)) 1 :=
    renameLoop_log_newNames _ _ _
  rw [hlog, assignNames_getElem?, hsi, Option.map_some'] at hni
  rw [hlog, assignNames_getElem?, hsj, Option.map_some'] at hnj
  have hni' : ni = newFilename ti (1 + i) pi' := (Option.some.inj hni).symm
  have hnj' : nj = newFilename tj (1 + j) pj' := (Option.some.inj hnj).symm
  have hvi : ti.Valid := by
    have hm : (ti, pi') ∈ sortByDate (datedFiles d now) := by
      rw [← hgi]
      exact List.getElem_mem hi
    exact hval _ (mem_sortByDate.mp hm)
  have hvj : tj.Valid := by
    have hm : (tj, pj') ∈ sortByDate (datedFiles d now) := by
      rw [← hgj]
      exact List.getElem_mem hj
    exact hval _ (mem_sortByDate.mp hm)
  rw [hni', hnj']
  exact newFilename_lt pi' pj' (DateTime.ble_of_blt hlt) (by omega) (by omega)
    hvi hvj

/-- C6 amended, witnessed on exDirC1 at sorted positions 0 and 2. -/
theorem C6_amended_witness :
    ("2024-01-01-001.jpg" : String) < "2024-01-02-003.jpg" :=
  C6_amended exDirC1 exNow 0 2 (mkDT 2024 1 1 9 0) (mkDT 2024 1 2 9 0)
    "a.jpg" "c.jpg" "2024-01-01-001.jpg" "2024-01-02-003.jpg"
    (by decide) (by decide) (by decide) (by decide) (by decide) (by decide)
    (by decide)

/-- C7 amended: with at most 999 image files and valid resolved
timestamps, every name a run builds matches the anchored pattern, and the
built names are strictly increasing in iteration (chronological) order, so
their lexicographic sort equals the chronological order. -/
theorem C7_amended : ∀ (d : Dir) (now : DateTime),
    (listImages d).length ≤ 999 →
    (∀ p ∈ datedFiles d now, (p.1).Valid) →
    (∀ nm ∈ (process_category d now).log.map (fun e => e.newName),
      matchesPattern nm = true) ∧
    ((process_category d now).log.map (fun e => e.newName)).Pairwise (· < ·) := by
  intro d now hlen hval
  have hslen : (sortByDate (datedFiles d now)).length = (listImages d).length := by
    rw [length_sortByDate]
    unfold datedFiles
    rw [List.length_map]
  have hlog : (process_category d now).log.map (fun e => e.newName) =
      assignNames (sortByDate (datedFiles d now)) 1 :=
    renameLoop_log_newNames _ _ _
  constructor
  · intro nm hnm
    rw [hlog] at hnm
    obtain ⟨n, hn⟩ := List.mem_iff_getElem?.mp hnm
    rw [assignNames_getElem?, Option.map_eq_some'] at hn
    obtain ⟨p, hp, hnm'⟩ := hn
    obtain ⟨t, q⟩ := p
    have hn' : n < (sortByDate (datedFiles d now)).length := by
      by_contra hcon
      rw [List.getElem?_eq_none (by omega)] at hp
      cases hp
    have hmem : (t, q) ∈ datedFiles d now :=
      mem_sortByDate.mp (List.getElem?_mem hp)
    have himg : isImageName q = true := mem_datedFiles_isImage hmem
    have hvt : t.Valid := hval _ hmem
    rw [← hnm']
    exact matchesPattern_newFilename t (1 + n) himg hvt (by omega)
  · rw [hlog, List.pairwise_iff_getElem]
    intro a b ha hb hab
    rw [assignNames_length] at ha hb
    have hpa : (assignNames (sortByDate (datedFiles d now)) 1)[a]? =
        some (newFilename ((sortByDate (datedFiles d now))[a]).1 (1 + a)
          ((sortByDate (datedFiles d now))[a]).2) := by
      rw [assignNames_getElem?, List.getElem?_eq_getElem ha, Option.map_some']
    have hpb : (assignNames (sortByDate (datedFiles d now)) 1)[b]? =
        some (newFilename ((sortByDate (datedFiles d now))[b]).1 (1 + b)
          ((sortByDate (datedFiles d now))[b]).2) := by
      rw [assignNames_getElem?, List.getElem?_eq_getElem hb, Option.map_some']
    have hga := List.getElem?_eq_getElem
      (by rw [assignNames_length]; exact ha :
        a < (assignNames (sortByDate (datedFiles d now)) 1).length)
    have hgb := List.getElem?_eq_getElem
      (by rw [assignNames_length]; exact hb :
        b < (assignNames (sortByDate (datedFiles d now)) 1).length)
    rw [hga] at hpa
    rw [hgb] at hpb
    rw [Option.some.inj hpa, Option.some.inj hpb]
    have hpw := (List.pairwise_iff_getElem.mp
      (sortByDate_pairwise (datedFiles d now))) a b ha hb hab
    have hva : ((sortByDate (datedFiles d now))[a]).1.Valid :=
      hval _ (mem_sortByDate.mp (List.getElem_mem ha))
    have hvb : ((sortByDate (datedFiles d now))[b]).1.Valid :=
      hval _ (mem_sortByDate.mp (List.getElem_mem hb))
    exact newFilename_lt _ _ hpw (by omega) (by omega) hva hvb

/-- C7 amended, witnessed on exDirC1. -/
theorem C7_amended_witness :
    matchesPattern "2024-01-01-001.jpg" = true ∧
    ((process_category exDirC1 exNow).log.map (fun e => e.newName)).Pairwise
      (· < ·) :=
  ⟨(C7_amended exDirC1 exNow (by decide) (by decide)).1 "2024-01-01-001.jpg"
      (by decide),
   (C7_amended exDirC1 exNow (by decide) (by decide)).2⟩


theorem applySubst_name (σ : List (String × String)) (e : Entry) :
    (applySubst σ e).name = substN σ e.name := by
  unfold applySubst substN
  cases σ.find? (fun p => p.1 == e.name) <;> rfl

theorem applySubst_img (σ : List (String × String)) (e : Entry) :
    (applySubst σ e).img = e.img := by
  unfold applySubst
  cases σ.find? (fun p => p.1 == e.name) <;> rfl

theorem dirNames_map_applySubst (σ : List (String × String)) (d : Dir) :
    dirNames (d.map (applySubst σ)) = (dirNames d).map (substN σ) := by
  unfold dirNames
  rw [List.map_map, List.map_map]
  apply List.map_congr_left
  intro e _
  exact applySubst_name σ e

theorem substN_of_not_key {σ : List (String × String)} {n : String}
    (h : ∀ p ∈ σ, p.1 ≠ n) : substN σ n = n := by
  unfold substN
  rw [List.find?_eq_none.mpr (fun p hp => by simp [h p hp])]

theorem renamedDir_fresh {d : Dir} (src : String) {dst : String}
    (h : ¬ dst ∈ dirNames d) :
    renamedDir d src dst =
      d.map (fun e => if e.name == src then { e with name := dst } else e) := by
  unfold renamedDir
  congr 1
  rw [List.filter_eq_self]
  intro e he
  have : e.name ≠ dst := by
    intro heq
    exact h (heq ▸ List.mem_map_of_mem (fun e => e.name) he)
  simp [this]

theorem find?_zip_of_mem {A B : List String} {a b : String}
    (hmem : (a, b) ∈ A.zip B) (hnd : A.Nodup) :
    (A.zip B).find? (fun p => p.1 == a) = some (a, b) := by
  induction A generalizing B with
  | nil => simp [List.zip] at hmem
  | cons a0 A' ih =>
    cases B with
    | nil => simp [List.zip] at hmem
    | cons b0 B' =>
      rw [List.nodup_cons] at hnd
      rw [List.zip_cons_cons] at hmem ⊢
      by_cases ha : a0 = a
      · subst ha
        have hb : ((a0, b0).1 == a0) = true := by simp
        rw [List.find?_cons, hb]
        rcases List.mem_cons.mp hmem with heq | htail
        · rw [heq]
        · exact absurd (List.of_mem_zip htail).1 hnd.1
      · have hb : ((a0, b0).1 == a) = false := by simp [ha]
        rw [List.find?_cons, hb]
        rcases List.mem_cons.mp hmem with heq | htail
        · exact absurd (congrArg Prod.fst heq).symm ha
        · exact ih htail hnd.2

theorem zip_snd_nodup {A B : List String} (hB : B.Nodup)
    {a1 b1 a2 b2 : String} (h1 : (a1, b1) ∈ A.zip B) (h2 : (a2, b2) ∈ A.zip B)
    (hne : a1 ≠ a2) : b1 ≠ b2 := by
  obtain ⟨i, hi⟩ := List.mem_iff_getElem?.mp h1
  obtain ⟨j, hj⟩ := List.mem_iff_getElem?.mp h2
  rw [List.getElem?_zip_eq_some] at hi hj
  intro hbeq
  have hij : i ≠ j := by
    intro heq
    subst heq
    rw [hi.1] at hj
    exact hne (Option.some.inj hj.1)
  have hbi := hi.2
  have hbj := hj.2
  rw [hbeq] at hbi
  have hilt : i < B.length := by
    by_contra hcon
    rw [List.getElem?_eq_none (by omega)] at hbi
    cases hbi
  have hjlt : j < B.length := by
    by_contra hcon
    rw [List.getElem?_eq_none (by omega)] at hbj
    cases hbj
  rw [List.getElem?_eq_getElem hilt] at hbi
  rw [List.getElem?_eq_getElem hjlt] at hbj
  exact hij (hB.getElem_inj_iff.mp
    ((Option.some.inj hbi).trans (Option.some.inj hbj).symm))

theorem renamedDir_self (d : Dir) (p : String) : renamedDir d p p = d := by
  unfold renamedDir
  have hf : d.filter (fun e => !(e.name == p) || e.name == p) = d := by
    rw [List.filter_eq_self]
    intro e _
    cases he : e.name == p <;> simp [he]
  rw [hf]
  have hm : ∀ e ∈ d, (if e.name == p then { e with name := p } else e) = e := by
    intro e _
    cases he : e.name == p with
    | false => simp
    | true =>
      simp only [if_pos rfl]
      rw [beq_iff_eq] at he
      rw [← he]
      exact entry_eta e
  calc d.map (fun e => if e.name == p then { e with name := p } else e)
      = d.map id := List.map_congr_left hm
    _ = d := List.map_id d

theorem applySubst_nil (e : Entry) : applySubst [] e = e := rfl

theorem applySubst_of_not_key {σ : List (String × String)} {e : Entry}
    (h : ∀ p ∈ σ, p.1 ≠ e.name) : applySubst σ e = e := by
  unfold applySubst
  rw [List.find?_eq_none.mpr (fun p hp => by simp [h p hp])]

theorem applySubst_cons_hit {o tg : String} (σ : List (String × String))
    {e : Entry} (h : e.name = o) :
    applySubst ((o, tg) :: σ) e = { e with name := tg } := by
  unfold applySubst
  have hb : ((o, tg).1 == e.name) = true := by simp [h]
  rw [List.find?_cons, hb]

theorem applySubst_cons_miss {o tg : String} (σ : List (String × String))
    {e : Entry} (h : e.name ≠ o) :
    applySubst ((o, tg) :: σ) e = applySubst σ e := by
  unfold applySubst
  have hb : ((o, tg).1 == e.name) = false := by
    simp
    intro heq
    exact absurd heq.symm h
  rw [List.find?_cons, hb]

theorem dirNames_map_rn (d : Dir) (old dst : String) :
    dirNames (d.map (fun e => if e.name == old then { e with name := dst } else e)) =
      (dirNames d).map (fun n => if n == old then dst else n) := by
  unfold dirNames
  rw [List.map_map, List.map_map]
  apply List.map_congr_left
  intro e _
  show (if e.name == old then ({ e with name := dst } : Entry) else e).name =
    (if e.name == old then dst else e.name)
  cases he : e.name == old <;> rfl

theorem nodup_map_rnN {L : List String} {old dst : String} (hnd : L.Nodup)
    (hfresh : ¬ dst ∈ L) :
    (L.map (fun n => if n == old then dst else n)).Nodup := by
  induction L with
  | nil => exact List.nodup_nil
  | cons a rest ih =>
    rw [List.nodup_cons] at hnd
    rw [List.map_cons, List.nodup_cons]
    refine ⟨?_, ih hnd.2 (fun hmem => hfresh (List.mem_cons_of_mem _ hmem))⟩
    intro hmem
    obtain ⟨x, hx, hxe⟩ := List.mem_map.mp hmem
    by_cases hxo : x = old <;> by_cases hao : a = old
    · apply hnd.1
      rw [hao, ← hxo]
      exact hx
    · rw [if_pos (by simp [hxo]), if_neg (by simp [hao])] at hxe
      apply hfresh
      rw [hxe]
      exact List.mem_cons_self a rest
    · rw [if_neg (by simp [hxo]), if_pos (by simp [hao])] at hxe
      apply hfresh
      rw [← hxe]
      exact List.mem_cons_of_mem _ hx
    · rw [if_neg (by simp [hxo]), if_neg (by simp [hao])] at hxe
      exact hnd.1 (hxe ▸ hx)

theorem renameLoop_dir_subst : ∀ (l : List (DateTime × String)) (c : Nat) (d : Dir),
    (dirNames d).Nodup →
    (l.map (fun p => p.2)).Nodup →
    (∀ o ∈ l.map (fun p => p.2), o ∈ dirNames d) →
    (assignNames l c).Nodup →
    (∀ p ∈ l.zip (assignNames l c), p.2 = p.1.2 ∨ ¬ p.2 ∈ dirNames d) →
    (renameLoop d c l).dir =
      d.map (applySubst ((l.map (fun p => p.2)).zip (assignNames l c))) := by
  intro l
  induction l with
  | nil =>
    intro c d _ _ _ _ _
    show d = d.map (applySubst [])
    calc d = d.map id := (List.map_id d).symm
      _ = d.map (applySubst []) := List.map_congr_left (fun e _ => rfl)
  | cons hd rest ih =>
    intro c d hnd hnodup holds htgts hfresh
    obtain ⟨t, old⟩ := hd
    have hold_mem : old ∈ dirNames d := holds old (by simp)
    have hold_entry : ∃ e ∈ d, e.name = old := by
      obtain ⟨e, he, hn⟩ := List.mem_map.mp hold_mem
      exact ⟨e, he, hn⟩
    have hassign : assignNames ((t, old) :: rest) c =
        newFilename t c old :: assignNames rest (c + 1) := rfl
    have hstep : (renameLoop d c ((t, old) :: rest)).dir =
        (renameLoop (renamedDir d old (newFilename t c old)) (c + 1) rest).dir := by
      simp only [renameLoop]
      rw [osRename_some (newFilename t c old) hold_entry]
    rw [hstep]
    have hnodup' : (rest.map (fun p => p.2)).Nodup := by
      rw [List.map_cons, List.nodup_cons] at hnodup
      exact hnodup.2
    have hold_not_rest : ¬ old ∈ rest.map (fun p => p.2) := by
      rw [List.map_cons, List.nodup_cons] at hnodup
      exact hnodup.1
    have htgts' : (assignNames rest (c + 1)).Nodup := by
      rw [hassign, List.nodup_cons] at htgts
      exact htgts.2
    have hdst_not_tgts : ¬ newFilename t c old ∈ assignNames rest (c + 1) := by
      rw [hassign, List.nodup_cons] at htgts
      exact htgts.1
    have hfresh_head : newFilename t c old = old ∨
        ¬ newFilename t c old ∈ dirNames d := by
      apply hfresh ((t, old), newFilename t c old)
      rw [hassign, List.zip_cons_cons]
      exact List.mem_cons_self _ _
    have hfresh' : ∀ p ∈ rest.zip (assignNames rest (c + 1)),
        p.2 = p.1.2 ∨ ¬ p.2 ∈ dirNames d := by
      intro p hp
      apply hfresh
      rw [hassign, List.zip_cons_cons]
      exact List.mem_cons_of_mem _ hp
    rcases hfresh_head with hself | hfreshdst
    · rw [hself, renamedDir_self]
      rw [ih (c + 1) d hnd hnodup'
        (fun o ho => holds o (List.mem_cons_of_mem _ ho)) htgts' hfresh']
      rw [List.map_cons, hassign, hself, List.zip_cons_cons]
      apply List.map_congr_left
      intro e _
      by_cases he : e.name = old
      · rw [applySubst_cons_hit _ he]
        have hkeys : ∀ p ∈ (rest.map (fun p => p.2)).zip
            (assignNames rest (c + 1)), p.1 ≠ e.name := by
          intro p hp hpe
          have hp1 := (List.of_mem_zip hp).1
          rw [hpe, he] at hp1
          exact hold_not_rest hp1
        rw [applySubst_of_not_key hkeys]
        rw [← he]
      · rw [applySubst_cons_miss _ he]
    · rw [renamedDir_fresh old hfreshdst]
      have hnames' : dirNames (d.map (fun e =>
          if e.name == old then { e with name := newFilename t c old } else e)) =
          (dirNames d).map
            (fun n => if n == old then newFilename t c old else n) :=
        dirNames_map_rn d old _
      have hnd' : (dirNames (d.map (fun e =>
          if e.name == old then { e with name := newFilename t c old } else e))).Nodup := by
        rw [hnames']
        exact nodup_map_rnN hnd hfreshdst
      have holds' : ∀ o ∈ rest.map (fun p => p.2), o ∈ dirNames (d.map (fun e =>
          if e.name == old then { e with name := newFilename t c old } else e)) := by
        intro o ho
        rw [hnames']
        have homem : o ∈ dirNames d := holds o (List.mem_cons_of_mem _ ho)
        have hone : o ≠ old := fun heq => hold_not_rest (heq ▸ ho)
        have hfix : (fun n => if n == old then newFilename t c old else n) o = o := by
          simp [hone]
        rw [← hfix]
        exact List.mem_map_of_mem _ homem
      have hfresh'' : ∀ p ∈ rest.zip (assignNames rest (c + 1)),
          p.2 = p.1.2 ∨ ¬ p.2 ∈ dirNames (d.map (fun e =>
            if e.name == old then { e with name := newFilename t c old } else e)) := by
        intro p hp
        rcases hfresh' p hp with h | h
        · exact Or.inl h
        · right
          rw [hnames']
          intro hmem
          obtain ⟨x, hx, hxe⟩ := List.mem_map.mp hmem
          by_cases hxo : x = old
          · rw [if_pos (by simp [hxo])] at hxe
            apply hdst_not_tgts
            rw [hxe]
            exact (List.of_mem_zip hp).2
          · rw [if_neg (by simp [hxo])] at hxe
            exact h (hxe ▸ hx)
      rw [ih (c + 1) _ hnd' hnodup' holds' htgts' hfresh'']
      rw [List.map_map]
      rw [List.map_cons, hassign, List.zip_cons_cons]
      apply List.map_congr_left
      intro e _
      show applySubst ((rest.map (fun p => p.2)).zip (assignNames rest (c + 1)))
          (if e.name == old then { e with name := newFilename t c old } else e) =
        applySubst ((old, newFilename t c old) ::
          (rest.map (fun p => p.2)).zip (assignNames rest (c + 1))) e
      by_cases hen : e.name = old
      · rw [applySubst_cons_hit _ hen]
        rw [if_pos (by simp [hen])]
        apply applySubst_of_not_key
        intro p hp hpe
        have hp1 := (List.of_mem_zip hp).1
        have hp1d : p.1 ∈ dirNames d := holds p.1 (List.mem_cons_of_mem _ hp1)
        apply hfreshdst
        have hpe' : p.1 = newFilename t c old := hpe
        rw [hpe'] at hp1d
        exact hp1d
      · rw [applySubst_cons_miss _ hen]
        rw [if_neg (by simp [hen])]

theorem renameLoop_dir_noop : ∀ (l : List (DateTime × String)) (c : Nat) (d : Dir),
    (∀ p ∈ l.zip (assignNames l c), p.2 = p.1.2) →
    (∀ o ∈ l.map (fun p => p.2), o ∈ dirNames d) →
    (renameLoop d c l).dir = d := by
  intro l
  induction l with
  | nil => intro c d _ _; rfl
  | cons hd rest ih =>
    intro c d hself holds
    obtain ⟨t, old⟩ := hd
    have hold_entry : ∃ e ∈ d, e.name = old := by
      obtain ⟨e, he, hn⟩ := List.mem_map.mp (holds old (by simp))
      exact ⟨e, he, hn⟩
    have hassign : assignNames ((t, old) :: rest) c =
        newFilename t c old :: assignNames rest (c + 1) := rfl
    have hdst : newFilename t c old = old := by
      apply hself ((t, old), newFilename t c old)
      rw [hassign, List.zip_cons_cons]
      exact List.mem_cons_self _ _
    have hstep : (renameLoop d c ((t, old) :: rest)).dir =
        (renameLoop (renamedDir d old (newFilename t c old)) (c + 1) rest).dir := by
      simp only [renameLoop]
      rw [osRename_some (newFilename t c old) hold_entry]
    rw [hstep, hdst, renamedDir_self]
    apply ih (c + 1) d
    · intro p hp
      apply hself
      rw [hassign, List.zip_cons_cons]
      exact List.mem_cons_of_mem _ hp
    · intro o ho
      exact holds o (List.mem_cons_of_mem _ ho)

theorem zip_assign_pairs {s : List (DateTime × String)} {c : Nat} {o tg : String}
    (h : (o, tg) ∈ (s.map (fun p => p.2)).zip (assignNames s c)) :
    ∃ t c', (t, o) ∈ s ∧ tg = newFilename t c' o := by
  obtain ⟨i, hi⟩ := List.mem_iff_getElem?.mp h
  rw [List.getElem?_zip_eq_some] at hi
  obtain ⟨ho, htg⟩ := hi
  rw [List.getElem?_map] at ho
  rw [assignNames_getElem?] at htg
  cases hs : s[i]? with
  | none => rw [hs] at ho; cases ho
  | some p =>
    rw [hs] at ho htg
    simp only [Option.map_some'] at ho htg
    obtain ⟨t, q⟩ := p
    have hq : q = o := Option.some.inj ho
    refine ⟨t, c + i, ?_, ?_⟩
    · rw [← hq]
      exact List.getElem?_mem hs
    · have hn := Option.some.inj htg
      rw [hq] at hn
      exact hn.symm

theorem mem_zip_left {A B : List String} (hlen : A.length = B.length)
    {a : String} (ha : a ∈ A) : ∃ b, (a, b) ∈ A.zip B := by
  obtain ⟨i, hi⟩ := List.mem_iff_getElem?.mp ha
  have hilt : i < A.length := by
    by_contra hcon
    rw [List.getElem?_eq_none (by omega)] at hi
    cases hi
  have hblt : i < B.length := by omega
  refine ⟨B[i], ?_⟩
  apply List.getElem?_mem
  rw [List.getElem?_zip_eq_some]
  exact ⟨hi, List.getElem?_eq_getElem hblt⟩

theorem filter_map_comm {L : List String} {f : String → String}
    {p : String → Bool} (h : ∀ x ∈ L, p (f x) = p x) :
    (L.map f).filter p = (L.filter p).map f := by
  induction L with
  | nil => rfl
  | cons a rest ih =>
    rw [List.map_cons, List.filter_cons, List.filter_cons]
    have ha := h a (List.mem_cons_self _ _)
    have ih' := ih fun x hx => h x (List.mem_cons_of_mem _ hx)
    cases hp : p a with
    | false => rw [ha.trans hp]; simp only [Bool.false_eq_true, if_neg,
        if_false]; exact ih'
    | true => rw [ha.trans hp]; simp only [if_pos]; rw [List.map_cons, ih']

theorem substN_hit {A B : List String} {a b : String}
    (hmem : (a, b) ∈ A.zip B) (hA : A.Nodup) :
    substN (A.zip B) a = b := by
  unfold substN
  rw [find?_zip_of_mem hmem hA]

theorem substN_miss {A B : List String} {n : String} (hn : ¬ n ∈ A) :
    substN (A.zip B) n = n := by
  apply substN_of_not_key
  intro p hp hpe
  exact hn (hpe ▸ (List.of_mem_zip hp).1)

theorem nodup_map_substN {L A B : List String}
    (hL : L.Nodup) (hA : A.Nodup) (hB : B.Nodup)
    (hlen : A.length = B.length)
    (hfr : ∀ pq ∈ A.zip B, pq.2 = pq.1 ∨ ¬ pq.2 ∈ L) :
    (L.map (substN (A.zip B))).Nodup := by
  have key : ∀ x ∈ L, ∀ y ∈ L, x ≠ y →
      substN (A.zip B) x ≠ substN (A.zip B) y := by
    intro x hx y hy hxy
    by_cases hxA : x ∈ A <;> by_cases hyA : y ∈ A
    · obtain ⟨bx, hbx⟩ := mem_zip_left hlen hxA
      obtain ⟨by', hby⟩ := mem_zip_left hlen hyA
      rw [substN_hit hbx hA, substN_hit hby hA]
      exact zip_snd_nodup hB hbx hby hxy
    · obtain ⟨bx, hbx⟩ := mem_zip_left hlen hxA
      rw [substN_hit hbx hA, substN_miss hyA]
      rcases hfr (x, bx) hbx with h | h
      · have h' : bx = x := h
        rw [h']
        exact hxy
      · intro heq
        exact h (heq ▸ hy)
    · obtain ⟨by', hby⟩ := mem_zip_left hlen hyA
      rw [substN_miss hxA, substN_hit hby hA]
      rcases hfr (y, by') hby with h | h
      · have h' : by' = y := h
        rw [h']
        exact hxy
      · intro heq
        exact h (heq ▸ hx)
    · rw [substN_miss hxA, substN_miss hyA]
      exact hxy
  show (L.map (substN (A.zip B))).Pairwise (· ≠ ·)
  rw [List.pairwise_map]
  have hLp : L.Pairwise (· ≠ ·) := hL
  exact hLp.imp_of_mem (fun ha hb hne => key _ ha _ hb hne)

theorem zip_with_snd {l : List (DateTime × String)} {B : List String}
    (hB : B = l.map (fun p => p.2)) :
    ∀ p ∈ l.zip B, p.2 = p.1.2 := by
  subst hB
  intro p hp
  obtain ⟨i, hi⟩ := List.mem_iff_getElem?.mp hp
  rw [List.getElem?_zip_eq_some] at hi
  obtain ⟨h1, h2⟩ := hi
  rw [List.getElem?_map, h1, Option.map_some'] at h2
  exact (Option.some.inj h2).symm

theorem assignNames_map_ext {f : String → String} :
    ∀ (s : List (DateTime × String)) (c : Nat),
    (∀ p ∈ s, extFor (f p.2) = extFor p.2) →
    assignNames (s.map (fun p => (p.1, f p.2))) c = assignNames s c := by
  intro s
  induction s with
  | nil => intro c _; rfl
  | cons p rest ih =>
    intro c hext
    obtain ⟨t, q⟩ := p
    simp only [List.map_cons, assignNames]
    congr 1
    · show newFilename t c (f q) = newFilename t c q
      unfold newFilename
      have h' : extFor (f q) = extFor q := hext (t, q) (List.mem_cons_self _ _)
      rw [h']
    · exact ih (c + 1) (fun p hp => hext p (List.mem_cons_of_mem _ hp))

theorem sorted_olds_nodup (d : Dir) (now : DateTime)
    (hnd : (dirNames d).Nodup) :
    ((sortByDate (datedFiles d now)).map (fun p => p.2)).Nodup := by
  have hperm : List.Perm
      ((sortByDate (datedFiles d now)).map (fun p => p.2))
      ((datedFiles d now).map (fun p => p.2)) :=
    (perm_sortByDate (datedFiles d now)).map _
  rw [hperm.nodup_iff, datedFiles_snd]
  exact hnd.filter _

theorem second_run_noop (d : Dir) (now : DateTime)
    (hnd : (dirNames d).Nodup)
    (htgtsnd : (assignNames (sortByDate (datedFiles d now)) 1).Nodup)
    (hfresh : ∀ p ∈ (sortByDate (datedFiles d now)).zip
        (assignNames (sortByDate (datedFiles d now)) 1),
      p.2 = p.1.2 ∨ ¬ p.2 ∈ dirNames d) :
    (process_category (d.map (applySubst
      (((sortByDate (datedFiles d now)).map (fun p => p.2)).zip
        (assignNames (sortByDate (datedFiles d now)) 1)))) now).dir =
      d.map (applySubst (((sortByDate (datedFiles d now)).map (fun p => p.2)).zip
        (assignNames (sortByDate (datedFiles d now)) 1))) := by
  set s := sortByDate (datedFiles d now) with hs
  set olds := s.map (fun p => p.2) with holds_def
  set tgts := assignNames s 1 with htgts_def
  set sig := olds.zip tgts with hsig
  set d1 := d.map (applySubst sig) with hd1_def
  have holdsnd : olds.Nodup := sorted_olds_nodup d now hnd
  have hlen_ot : olds.length = tgts.length := by
    rw [holds_def, htgts_def, List.length_map, assignNames_length]
  have holdsmem : ∀ o ∈ olds, o ∈ dirNames d := by
    intro o ho
    obtain ⟨p, hp, hpe⟩ := List.mem_map.mp ho
    obtain ⟨e, he, hen⟩ := mem_datedFiles_entry (mem_sortByDate.mp hp)
    rw [← hpe, ← hen]
    exact List.mem_map_of_mem _ he
  have hpairs : ∀ pq ∈ sig, ∃ t c', (t, pq.1) ∈ s ∧
      pq.2 = newFilename t c' pq.1 := by
    intro pq hpq
    obtain ⟨o, tg⟩ := pq
    exact zip_assign_pairs hpq
  have himgkey : ∀ pq ∈ sig, isImageName pq.1 = true := by
    intro pq hpq
    obtain ⟨t, c', hmem, _⟩ := hpairs pq hpq
    exact mem_datedFiles_isImage (mem_sortByDate.mp hmem)
  have hext : ∀ pq ∈ sig, extFor pq.2 = extFor pq.1 := by
    intro pq hpq
    obtain ⟨t, c', hmem, htg⟩ := hpairs pq hpq
    rw [htg]
    exact extFor_newFilename t c' (himgkey pq hpq)
  have himgval : ∀ pq ∈ sig, isImageName pq.2 = true := by
    intro pq hpq
    obtain ⟨t, c', hmem, htg⟩ := hpairs pq hpq
    rw [htg]
    exact isImageName_newFilename t c' (himgkey pq hpq)
  have hpres : ∀ n ∈ dirNames d, isImageName (substN sig n) = isImageName n := by
    intro n hn'
    by_cases hkey : n ∈ olds
    · obtain ⟨b, hb⟩ := mem_zip_left hlen_ot hkey
      rw [substN_hit hb holdsnd]
      rw [himgval (n, b) hb, himgkey (n, b) hb]
    · rw [substN_miss hkey]
  have hnames1 : dirNames d1 = (dirNames d).map (substN sig) :=
    dirNames_map_applySubst sig d
  have hfr' : ∀ pq ∈ sig, pq.2 = pq.1 ∨ ¬ pq.2 ∈ dirNames d := by
    intro pq hpq
    obtain ⟨i, hi⟩ := List.mem_iff_getElem?.mp hpq
    rw [List.getElem?_zip_eq_some] at hi
    obtain ⟨h1, h2⟩ := hi
    rw [holds_def, List.getElem?_map] at h1
    cases hsi : s[i]? with
    | none => rw [hsi] at h1; cases h1
    | some sp =>
      rw [hsi, Option.map_some'] at h1
      have hmem : (sp, pq.2) ∈ s.zip tgts := by
        apply List.getElem?_mem
        rw [List.getElem?_zip_eq_some]
        exact ⟨hsi, h2⟩
      rcases hfresh (sp, pq.2) hmem with h | h
      · left
        rw [← Option.some.inj h1]
        exact h
      · right
        exact h
  have hnd1 : (dirNames d1).Nodup := by
    rw [hnames1]
    exact nodup_map_substN hnd holdsnd htgtsnd hlen_ot hfr'
  have hli1 : listImages d1 = (listImages d).map (substN sig) := by
    unfold listImages
    rw [hnames1]
    exact filter_map_comm hpres
  have hdated1 : datedFiles d1 now =
      (datedFiles d now).map (fun p => (p.1, substN sig p.2)) := by
    unfold datedFiles
    rw [hli1, List.map_map, List.map_map]
    apply List.map_congr_left
    intro q hq
    show (dateForPath d1 now (substN sig q), substN sig q) =
      (dateForPath d now q, substN sig q)
    have hqn : q ∈ dirNames d := List.mem_of_mem_filter hq
    obtain ⟨e, he, hen⟩ := List.mem_map.mp hqn
    have h1 : dateForPath d now q = get_photo_date e.img now := by
      rw [← hen]
      exact dateForPath_of_mem now he hnd
    have he1 : applySubst sig e ∈ d1 := by
      rw [hd1_def]
      exact List.mem_map_of_mem _ he
    have h2 : dateForPath d1 now (substN sig q) =
        get_photo_date (applySubst sig e).img now := by
      have hname : (applySubst sig e).name = substN sig q := by
        rw [applySubst_name, hen]
      rw [← hname]
      exact dateForPath_of_mem now he1 hnd1
    rw [h1, h2, applySubst_img]
  have hsort1 : sortByDate (datedFiles d1 now) =
      s.map (fun p => (p.1, substN sig p.2)) := by
    rw [hdated1, sortByDate_map (fun p => (p.1, substN sig p.2)) (fun p => rfl), hs]
  have holds_map : olds.map (substN sig) = tgts := by
    apply List.ext_getElem?
    intro n
    rw [List.getElem?_map]
    by_cases hn : n < olds.length
    · have h1 : olds[n]? = some olds[n] := List.getElem?_eq_getElem hn
      rw [h1, Option.map_some']
      have hpair : (olds[n], tgts[n]) ∈ sig := by
        apply List.getElem?_mem
        rw [List.getElem?_zip_eq_some]
        refine ⟨h1, List.getElem?_eq_getElem (by omega)⟩
      rw [substN_hit hpair holdsnd]
      exact (List.getElem?_eq_getElem (by omega : n < tgts.length)).symm
    · rw [List.getElem?_eq_none (by omega : olds.length ≤ n),
        List.getElem?_eq_none (by omega : tgts.length ≤ n)]
      rfl
  have hextf : ∀ p ∈ s, extFor (substN sig p.2) = extFor p.2 := by
    intro p hp
    have hkey : p.2 ∈ olds := by
      rw [holds_def]
      exact List.mem_map_of_mem _ hp
    obtain ⟨b, hb⟩ := mem_zip_left hlen_ot hkey
    rw [substN_hit hb holdsnd]
    exact hext (p.2, b) hb
  have hassign1 : assignNames (s.map (fun p => (p.1, substN sig p.2))) 1 =
      tgts := by
    rw [assignNames_map_ext s 1 hextf]
  have hsnd1 : (s.map (fun p => (p.1, substN sig p.2))).map (fun p => p.2) =
      tgts := by
    rw [List.map_map, ← holds_map, holds_def, List.map_map]
    rfl
  have htpres : ∀ o ∈ tgts, o ∈ dirNames d1 := by
    intro o ho
    rw [← holds_map] at ho
    obtain ⟨a, ha, hae⟩ := List.mem_map.mp ho
    rw [hnames1, ← hae]
    exact List.mem_map_of_mem _ (holdsmem a ha)
  show (process_category d1 now).dir = d1
  unfold process_category
  rw [hsort1]
  apply renameLoop_dir_noop
  · rw [hassign1, ← hsnd1]
    exact zip_with_snd rfl
  · rw [hsnd1]
    exact htpres

/-- C5: running process_category a second time on the directory a first run
produced changes nothing, provided the first run was collision-free: the
names it computes are pairwise distinct and each is either the file's
current name or absent from the directory. (The unconditional claim fails:
see the counterexample, where a collision run leaves a file whose name
disagrees with its timestamp and the second run renames it.) -/
theorem C5_amended (d : Dir) (now : DateTime)
    (hnd : (dirNames d).Nodup)
    (htgtsnd : (assignNames (sortByDate (datedFiles d now)) 1).Nodup)
    (hfresh : ∀ p ∈ (sortByDate (datedFiles d now)).zip
        (assignNames (sortByDate (datedFiles d now)) 1),
      p.2 = p.1.2 ∨ ¬ p.2 ∈ dirNames d) :
    (process_category ((process_category d now).dir) now).dir =
      (process_category d now).dir := by
  have hrun1 : (process_category d now).dir =
      d.map (applySubst (((sortByDate (datedFiles d now)).map (fun p => p.2)).zip
        (assignNames (sortByDate (datedFiles d now)) 1))) := by
    unfold process_category
    apply renameLoop_dir_subst _ _ _ hnd (sorted_olds_nodup d now hnd) _ htgtsnd hfresh
    intro o ho
    obtain ⟨p, hp, hpe⟩ := List.mem_map.mp ho
    obtain ⟨e, he, hen⟩ := mem_datedFiles_entry (mem_sortByDate.mp hp)
    rw [← hpe, ← hen]
    exact List.mem_map_of_mem _ he
  rw [hrun1]
  exact second_run_noop d now hnd htgtsnd hfresh

/-- Witness for C5: on the three-file example directory the hypotheses of
the amended idempotence theorem hold and the second run changes nothing. -/
theorem C5_amended_witness :
    (process_category ((process_category exDirC1 exNow).dir) exNow).dir =
      (process_category exDirC1 exNow).dir :=
  C5_amended exDirC1 exNow (by decide) (by decide) (by decide)
